import Mathlib

/-!
The fixed-width bit-packing codec of libpcc, `BitVec.hpp`.

A shallow embedding of `src/include/BitVec.hpp` and theorems about it.

Conventions of the embedding.

* `std::bitset<N>` is a natural number: bit `i` of the bitset is `Nat.testBit v i`.
  A bitset of size `N` holds a value below `2 ^ N`.
* `std::bitset::operator[]` has the precondition `pos < size()`.  An access whose
  index is kept below the size by the condition of the enclosing loop or by a
  preceding `%` is embedded with `Nat.testBit` / `bitsetSet`.  The accesses that
  are not (the read `x[i]` in the third loop of `getPacked`, bounded by `NZ`
  rather than `NX`, and `elmt[current_bit]` in `fromPackedData`, which has no
  bound when the record width is 0) are checked and yield a `Fault`.
* `packed_data` is a list of byte values.  Reading or writing it outside its
  bounds is undefined behaviour in C++; the embedding stops with a `Fault` that
  records the offending index.
* `new unsigned char[k]` returns memory with indeterminate contents; the
  embedding takes those contents as the parameter `fresh`.
* `size_t` is 64 bits wide; `float` is IEEE-754 binary32.
-/

namespace LibPcc

/-- Events at which the C++ program leaves defined behaviour. -/
inductive Fault where
  /-- `operator[]` of a `std::bitset` of size `size` at position `pos ≥ size`. -/
  | bitsetIndex (pos size : Nat)
  /-- Read of `packed_data[i]` with `i` not below the length of the held buffer. -/
  | packedRead (i : Nat)
  /-- Write of `packed_data[i]` with `i` not below the allocated length. -/
  | packedWrite (i : Nat)
  /-- Access `data[i]` with `i` not below `data.size()`. -/
  | dataIndex (i : Nat)
  /-- Evaluation of `% elmt.size()` with `elmt.size() == 0`. -/
  | divByZero
  /-- The iteration budget of the embedding of a `while` loop ran out. -/
  | loopBudget
  deriving DecidableEq, Repr

deriving instance DecidableEq for Except

/-! ## `std::bitset` -/

/-- Assignment `v[pos] = b` on a bitset. -/
def bitsetSet (v pos : Nat) (b : Bool) : Nat :=
  if v.testBit pos = b then v else v ^^^ 2 ^ pos

/-- Checked read `v[pos]` on a bitset of size `N`. -/
def bitsetGet (N v pos : Nat) : Except Fault Bool :=
  if pos < N then .ok (v.testBit pos) else .error (.bitsetIndex pos N)

/-- Constructor `std::bitset<N>(unsigned long long val)`: the first `min N 64`
bit positions are initialised from `val`, the others are zero. -/
def bitsetOfULL (N val : Nat) : Nat :=
  val % 2 ^ (min N 64)

/-- Loop `for (size_t i = 0; i < n; ++i) body`. -/
def forLoop {σ : Type} : Nat → (Nat → σ → σ) → σ → σ
  | 0, _, s => s
  | n + 1, body, s => body n (forLoop n body s)

/-- Loop `for (size_t i = 0; i < n; ++i) body` whose body may fault. -/
def forLoopM {σ : Type} : Nat → (Nat → σ → Except Fault σ) → σ → Except Fault σ
  | 0, _, s => .ok s
  | n + 1, body, s =>
    match forLoopM n body s with
    | .ok s1 => body n s1
    | .error e => .error e

/-! ## `BitVec<NX,NY,NZ>` -/

/-- The data members `x`, `y`, `z` of `BitVec<NX,NY,NZ>`. -/
structure BitVec where
  x : Nat
  y : Nat
  z : Nat
  deriving DecidableEq, Repr

/-- Constructor `BitVec(uint64_t t_x = 0, uint64_t t_y = 0, uint64_t t_z = 0)`. -/
def BitVec.fromValues (NX NY NZ t_x t_y t_z : Nat) : BitVec :=
  { x := bitsetOfULL NX t_x, y := bitsetOfULL NY t_y, z := bitsetOfULL NZ t_z }

/-- Value of `BitVec()`, the element `data.resize` fills with. -/
def BitVec.default (NX NY NZ : Nat) : BitVec :=
  BitVec.fromValues NX NY NZ 0 0 0

/-- Member `getSize`. -/
def getSize (NX NY NZ : Nat) : Nat := NX + NY + NZ

/-- Member `getPacked`.  The third loop reads `x[i]`, as the source does. -/
def getPacked (NX NY NZ : Nat) (v : BitVec) : Except Fault Nat :=
  let packed := forLoop NX (fun i p => bitsetSet p i (v.x.testBit i)) 0
  let packed := forLoop NY (fun i p => bitsetSet p (NX + i) (v.y.testBit i)) packed
  forLoopM NZ
    (fun i p =>
      match bitsetGet NX v.x i with
      | .ok b => .ok (bitsetSet p (NX + NY + i) b)
      | .error e => .error e)
    packed

/-- Member `setFromPacked`. -/
def setFromPacked (NX NY NZ : Nat) (v : BitVec) (packed : Nat) : BitVec :=
  { x := forLoop NX (fun i x => bitsetSet x i (packed.testBit i)) v.x
    y := forLoop NY (fun i y => bitsetSet y i (packed.testBit (NX + i))) v.y
    z := forLoop NZ (fun i z => bitsetSet z i (packed.testBit (NX + NY + i))) v.z }

/-- Constructor `BitVec(const std::bitset<NX+NY+NZ>& packed)`. -/
def BitVec.fromPacked (NX NY NZ packed : Nat) : BitVec :=
  setFromPacked NX NY NZ { x := 0, y := 0, z := 0 } packed

/-! ## `BitVecArray<NX,NY,NZ>` -/

/-- Number of halvings that bring `n` below `2 ^ 24`, the width of a binary32
significand; `fuel` bounds the search. -/
def f32Shift : Nat → Nat → Nat
  | 0, _ => 0
  | fuel + 1, n => if n < 2 ^ 24 then 0 else f32Shift fuel (n / 2) + 1

/-- Conversion of a `size_t` to `float` (round to nearest, ties to even); the
result is the value of the float, which is an integer. -/
def toFloat32 (n : Nat) : Nat :=
  let e := f32Shift 64 n
  let q := n / 2 ^ e
  let r := n % 2 ^ e
  if 2 ^ e < 2 * r ∨ (2 * r = 2 ^ e ∧ q % 2 = 1) then (q + 1) * 2 ^ e else q * 2 ^ e

/-- Member `getByteSize` for `data.size() = size`.  The quotient
`bit_size/8.0f` is exact (a scaling by a power of two), and so are `ceil` and
the cast back to `size_t`: the result is the ceiling of `toFloat32 bit_size / 8`. -/
def getByteSize (NX NY NZ size : Nat) : Nat :=
  let bit_size := (size * (NX + NY + NZ)) % 2 ^ 64
  (toFloat32 bit_size + 7) / 8

/-- Local variables of `calcPackedData` together with `packed_data`. -/
structure PackState where
  packed_data : List Nat
  byte : Nat
  current_byte : Nat
  bit_idx : Nat
  deriving DecidableEq, Repr

/-- Body shared by the three inner loops of `calcPackedData`:
`byte[bit_idx] = b; bit_idx = (bit_idx + 1) % 8; if (bit_idx == 0) ...`. -/
def putBit (b : Bool) (s : PackState) : Except Fault PackState :=
  let byte := bitsetSet s.byte s.bit_idx b
  let bit_idx := (s.bit_idx + 1) % 8
  if bit_idx = 0 then
    if s.current_byte < s.packed_data.length then
      .ok { packed_data := s.packed_data.set s.current_byte (byte % 256)
            byte := byte
            current_byte := s.current_byte + 1
            bit_idx := bit_idx }
    else .error (.packedWrite s.current_byte)
  else
    .ok { s with byte := byte, bit_idx := bit_idx }

/-- Body of `for (auto v : data)` in `calcPackedData`: the x-, y- and
z-component loops. -/
def packVec (NX NY NZ : Nat) (v : BitVec) (s : PackState) : Except Fault PackState :=
  match forLoopM NX (fun i s => putBit (v.x.testBit i) s) s with
  | .error e => .error e
  | .ok s1 =>
    match forLoopM NY (fun i s => putBit (v.y.testBit i) s) s1 with
    | .error e => .error e
    | .ok s2 => forLoopM NZ (fun i s => putBit (v.z.testBit i) s) s2

/-- Loop `for (auto v : data)` of `calcPackedData`. -/
def packAll (NX NY NZ : Nat) : List BitVec → PackState → Except Fault PackState
  | [], s => .ok s
  | v :: rest, s =>
    match packVec NX NY NZ v s with
    | .ok s1 => packAll NX NY NZ rest s1
    | .error e => .error e

/-- Loop `while (bit_idx != 0) { byte[bit_idx] = false; bit_idx = (bit_idx + 1) % 8; }`
run for at most `budget` iterations. -/
def padLoop : Nat → Nat → Nat → Option (Nat × Nat)
  | 0, byte, bit_idx => if bit_idx ≠ 0 then none else some (byte, bit_idx)
  | budget + 1, byte, bit_idx =>
    if bit_idx ≠ 0 then padLoop budget (bitsetSet byte bit_idx false) ((bit_idx + 1) % 8)
    else some (byte, bit_idx)

/-- Member `calcPackedData`; `fresh i` is the content of byte `i` of the newly
allocated buffer before it is written.  Returns the buffer `packed_data`. -/
def calcPackedData (NX NY NZ : Nat) (fresh : Nat → Nat) (data : List BitVec) :
    Except Fault (List Nat) :=
  let s0 : PackState :=
    { packed_data := (List.range (getByteSize NX NY NZ data.length)).map fresh
      byte := 0
      current_byte := 0
      bit_idx := 0 }
  match packAll NX NY NZ data s0 with
  | .error e => .error e
  | .ok s =>
    if s.bit_idx ≠ 0 then
      match padLoop 8 s.byte s.bit_idx with
      | none => .error .loopBudget
      | some (byte, _) =>
        if s.current_byte < s.packed_data.length then
          .ok (s.packed_data.set s.current_byte (byte % 256))
        else .error (.packedWrite s.current_byte)
    else .ok s.packed_data

/-- Local variables of `fromPackedData` together with `data`. -/
structure UnpackState where
  data : List BitVec
  elmt : Nat
  current_bit : Nat
  elmt_idx : Nat
  deriving DecidableEq, Repr

/-- Inner loop `for (byte_idx ...; byte_idx < byte.size(); ++byte_idx)` of
`fromPackedData`, entered at `byte_idx` with `rem = 8 - byte_idx` iterations
left.  A `break` returns the state at once; the outer loop then sees
`elmt_idx == data.size()` and stops as well. -/
def unpackByte (NX NY NZ byte : Nat) : Nat → Nat → UnpackState → Except Fault UnpackState
  | 0, _, s => .ok s
  | rem + 1, byte_idx, s =>
    if s.current_bit < NX + NY + NZ then
      let elmt := bitsetSet s.elmt s.current_bit (byte.testBit byte_idx)
      if NX + NY + NZ = 0 then .error .divByZero
      else
        let current_bit := (s.current_bit + 1) % (NX + NY + NZ)
        if current_bit = 0 then
          if s.elmt_idx < s.data.length then
            let data := s.data.set s.elmt_idx (BitVec.fromPacked NX NY NZ elmt)
            let elmt_idx := s.elmt_idx + 1
            if elmt_idx = data.length then
              .ok { data := data, elmt := elmt, current_bit := current_bit, elmt_idx := elmt_idx }
            else
              unpackByte NX NY NZ byte rem (byte_idx + 1)
                { data := data, elmt := elmt, current_bit := current_bit, elmt_idx := elmt_idx }
          else .error (.dataIndex s.elmt_idx)
        else
          unpackByte NX NY NZ byte rem (byte_idx + 1)
            { s with elmt := elmt, current_bit := current_bit }
    else .error (.bitsetIndex s.current_bit (NX + NY + NZ))

/-- Outer loop `for (size_t i ...; i < getByteSize(); ++i)` of `fromPackedData`,
entered at `i` with `rem = getByteSize() - i` iterations left. -/
def unpackLoop (NX NY NZ : Nat) (packed_data : List Nat) :
    Nat → Nat → UnpackState → Except Fault UnpackState
  | 0, _, s => .ok s
  | rem + 1, i, s =>
    match packed_data[i]? with
    | none => .error (.packedRead i)
    | some c =>
      match unpackByte NX NY NZ (c % 2 ^ 8) 8 0 s with
      | .error e => .error e
      | .ok s1 =>
        if s1.elmt_idx = s1.data.length then .ok s1
        else unpackLoop NX NY NZ packed_data rem (i + 1) s1

/-- Member `fromPackedData(num_elmnts)` run on the held buffer `packed_data`.
Returns the vector `data`.  `getByteSize()` depends on `data.size()` alone,
which is `num_elmnts` from the `resize` on. -/
def fromPackedData (NX NY NZ : Nat) (packed_data : List Nat) (num_elmnts : Nat) :
    Except Fault (List BitVec) :=
  let s0 : UnpackState :=
    { data := List.replicate num_elmnts (BitVec.default NX NY NZ)
      elmt := 0
      current_bit := 0
      elmt_idx := 0 }
  match unpackLoop NX NY NZ packed_data (getByteSize NX NY NZ num_elmnts) 0 s0 with
  | .ok s => .ok s.data
  | .error e => .error e

/-! ## Further readings of the same members

`calcPackedDataLogged` is `calcPackedData` with a log of the indices at which
`packed_data` is written, in the order of the writes.
`BitVecArray.fromPackedData` is `fromPackedData` on an array object that
already holds a record sequence. -/

/-- Body of the inner loops of `calcPackedData`, as `putBit`, recording the
index of the write to `packed_data` when one is made. -/
def putBitLogged (b : Bool) (s : PackState × List Nat) : Except Fault (PackState × List Nat) :=
  let byte := bitsetSet s.1.byte s.1.bit_idx b
  let bit_idx := (s.1.bit_idx + 1) % 8
  if bit_idx = 0 then
    if s.1.current_byte < s.1.packed_data.length then
      .ok ({ packed_data := s.1.packed_data.set s.1.current_byte (byte % 256)
             byte := byte
             current_byte := s.1.current_byte + 1
             bit_idx := bit_idx },
           s.2 ++ [s.1.current_byte])
    else .error (.packedWrite s.1.current_byte)
  else
    .ok ({ s.1 with byte := byte, bit_idx := bit_idx }, s.2)

/-- Body of `for (auto v : data)` in `calcPackedData`, with the write log. -/
def packVecLogged (NX NY NZ : Nat) (v : BitVec) (s : PackState × List Nat) :
    Except Fault (PackState × List Nat) :=
  match forLoopM NX (fun i s => putBitLogged (v.x.testBit i) s) s with
  | .error e => .error e
  | .ok s1 =>
    match forLoopM NY (fun i s => putBitLogged (v.y.testBit i) s) s1 with
    | .error e => .error e
    | .ok s2 => forLoopM NZ (fun i s => putBitLogged (v.z.testBit i) s) s2

/-- Loop `for (auto v : data)` of `calcPackedData`, with the write log. -/
def packAllLogged (NX NY NZ : Nat) :
    List BitVec → PackState × List Nat → Except Fault (PackState × List Nat)
  | [], s => .ok s
  | v :: rest, s =>
    match packVecLogged NX NY NZ v s with
    | .ok s1 => packAllLogged NX NY NZ rest s1
    | .error e => .error e

/-- Member `calcPackedData` returning, with the buffer, the indices at which
`packed_data` was written, in the order of the writes. -/
def calcPackedDataLogged (NX NY NZ : Nat) (fresh : Nat → Nat) (data : List BitVec) :
    Except Fault (List Nat × List Nat) :=
  let s0 : PackState :=
    { packed_data := (List.range (getByteSize NX NY NZ data.length)).map fresh
      byte := 0
      current_byte := 0
      bit_idx := 0 }
  match packAllLogged NX NY NZ data (s0, []) with
  | .error e => .error e
  | .ok (s, writes) =>
    if s.bit_idx ≠ 0 then
      match padLoop 8 s.byte s.bit_idx with
      | none => .error .loopBudget
      | some (byte, _) =>
        if s.current_byte < s.packed_data.length then
          .ok (s.packed_data.set s.current_byte (byte % 256), writes ++ [s.current_byte])
        else .error (.packedWrite s.current_byte)
    else .ok (s.packed_data, writes)

/-- Data members `data` and `packed_data` of `BitVecArray<NX,NY,NZ>`. -/
structure BitVecArray where
  data : List BitVec
  packed_data : List Nat
  deriving DecidableEq, Repr

/-- Call `data.clear()` of `std::vector`. -/
def vectorClear (_data : List BitVec) : List BitVec := []

/-- Call `data.resize(n)` of `std::vector`: the first `n` elements are kept and
the vector is filled up to `n` elements with `d`, the value of `BitVec()`. -/
def vectorResize (data : List BitVec) (n : Nat) (d : BitVec) : List BitVec :=
  data.take n ++ List.replicate (n - data.length) d

/-- Member `fromPackedData(num_elmnts)` on an array object: `data` is cleared
and resized, then filled from `packed_data`, which is left as it is. -/
def BitVecArray.fromPackedData (NX NY NZ : Nat) (a : BitVecArray) (num_elmnts : Nat) :
    Except Fault BitVecArray :=
  let data := vectorClear a.data
  let data := vectorResize data num_elmnts (BitVec.default NX NY NZ)
  let s0 : UnpackState := { data := data, elmt := 0, current_bit := 0, elmt_idx := 0 }
  match unpackLoop NX NY NZ a.packed_data (getByteSize NX NY NZ data.length) 0 s0 with
  | .ok s => .ok { a with data := s.data }
  | .error e => .error e

/-! ## Vocabulary of the statements -/

/-- Bit `c` of the `NX+NY+NZ`-bit run of a record: the x bits, then the y bits,
then the z bits, each field low index first. -/
def recordBit (NX NY : Nat) (v : BitVec) (c : Nat) : Bool :=
  if c < NX then v.x.testBit c
  else if c < NX + NY then v.y.testBit (c - NX)
  else v.z.testBit (c - NX - NY)

/-- Bit `k` of a byte buffer read as a bit stream: bit `k % 8` of byte `k / 8`. -/
def streamBit (buf : List Nat) (k : Nat) : Bool :=
  (buf.getD (k / 8) 0).testBit (k % 8)

/-- Bit `k` of a record sequence read as a bit stream without gaps: bit
`k % W` of record `k / W`, where `W = NX+NY+NZ`. -/
def dataBit (NX NY NZ : Nat) (data : List BitVec) (k : Nat) : Bool :=
  recordBit NX NY (data.getD (k / (NX + NY + NZ)) (BitVec.default NX NY NZ))
    (k % (NX + NY + NZ))

/-- The `W` stream bits of a buffer from bit `off` on, as a bitset of size `W`. -/
def streamWindow (buf : List Nat) (off W : Nat) : Nat :=
  forLoop W (fun c e => bitsetSet e c (streamBit buf (off + c))) 0

/-- The record held by bits `j * W .. j * W + W - 1` of a buffer, `W = NX+NY+NZ`. -/
def decodeAt (NX NY NZ : Nat) (buf : List Nat) (j : Nat) : BitVec :=
  BitVec.fromPacked NX NY NZ (streamWindow buf (j * (NX + NY + NZ)) (NX + NY + NZ))

/-- The record sequence that `n` records decoded from the first `B` bytes of a
buffer make: record `j` is decoded when its bits lie within those bytes and is
the default record otherwise. -/
def decodeAll (NX NY NZ : Nat) (buf : List Nat) (n B : Nat) : List BitVec :=
  (List.range n).map fun j =>
    if j < 8 * B / (NX + NY + NZ) then decodeAt NX NY NZ buf j else BitVec.default NX NY NZ

/-- A result of the pack loops paired with a write log. -/
def attachLog (r : Except Fault PackState) (log : List Nat) :
    Except Fault (PackState × List Nat) :=
  match r with
  | .ok s => .ok (s, log)
  | .error e => .error e

/-- A record whose fields are within the declared widths. -/
def BitVec.InShape (NX NY NZ : Nat) (v : BitVec) : Prop :=
  v.x < 2 ^ NX ∧ v.y < 2 ^ NY ∧ v.z < 2 ^ NZ

instance (NX NY NZ : Nat) (v : BitVec) : Decidable (v.InShape NX NY NZ) := by
  unfold BitVec.InShape
  infer_instance

/-! ## Loop invariants -/

/-- State of `calcPackedData` after `t` bits of the stream `g` have been consumed,
for a buffer of `A` bytes allocated with contents `fresh`. -/
structure PackInv (g : Nat → Bool) (A : Nat) (fresh : Nat → Nat) (t : Nat)
    (s : PackState) : Prop where
  bit_idx : s.bit_idx = t % 8
  current_byte : s.current_byte = t / 8
  length : s.packed_data.length = A
  room : t / 8 ≤ A
  written : ∀ k, k < 8 * (t / 8) → streamBit s.packed_data k = g k
  small : ∀ i, i < t / 8 → s.packed_data.getD i 0 < 256
  rest : ∀ i, t / 8 ≤ i → i < A → s.packed_data.getD i 0 = fresh i
  acc : ∀ c, c < t % 8 → s.byte.testBit c = g (8 * (t / 8) + c)

/-- A buffer of `A` bytes, allocated with contents `fresh`, whose first `L`
stream bits are those of `g`, padded with zero bits up to the byte boundary. -/
structure PackedOf (g : Nat → Bool) (L A : Nat) (fresh : Nat → Nat) (buf : List Nat) :
    Prop where
  length : buf.length = A
  bits : ∀ k, k < L → streamBit buf k = g k
  pad : ∀ k, L ≤ k → k < 8 * ((L + 7) / 8) → streamBit buf k = false
  small : ∀ i, i < (L + 7) / 8 → buf.getD i 0 < 256
  rest : ∀ i, (L + 7) / 8 ≤ i → i < A → buf.getD i 0 = fresh i

/-- State of `fromPackedData(n)` after `t` bits of the buffer have been consumed
and before the last record is complete. -/
structure UnpackInv (NX NY NZ : Nat) (packed : List Nat) (n t : Nat) (s : UnpackState) :
    Prop where
  length : s.data.length = n
  current_bit : s.current_bit = t % (NX + NY + NZ)
  elmt_idx : s.elmt_idx = t / (NX + NY + NZ)
  notDone : t / (NX + NY + NZ) < n
  decoded : ∀ j, j < t / (NX + NY + NZ) →
    s.data.getD j (BitVec.default NX NY NZ) = decodeAt NX NY NZ packed j
  pending : ∀ j, t / (NX + NY + NZ) ≤ j →
    s.data.getD j (BitVec.default NX NY NZ) = BitVec.default NX NY NZ
  acc : ∀ c, c < t % (NX + NY + NZ) →
    s.elmt.testBit c = streamBit packed (t / (NX + NY + NZ) * (NX + NY + NZ) + c)

/-- State of `fromPackedData(n)` when the last record has been assigned while
byte `i` was being read. -/
structure UnpackDone (NX NY NZ : Nat) (packed : List Nat) (n i : Nat) (s : UnpackState) :
    Prop where
  length : s.data.length = n
  elmt_idx : s.elmt_idx = n
  decoded : ∀ j, j < n →
    s.data.getD j (BitVec.default NX NY NZ) = decodeAt NX NY NZ packed j
  within : n * (NX + NY + NZ) ≤ 8 * (i + 1)

/-! ## Bitsets and loops -/

theorem testBit_bitsetSet (v pos : Nat) (b : Bool) (j : Nat) :
    (bitsetSet v pos b).testBit j = if j = pos then b else v.testBit j := by
  unfold bitsetSet
  by_cases h : v.testBit pos = b
  · simp only [h, if_true]
    by_cases hj : j = pos
    · simp [hj, h]
    · simp [hj]
  · simp only [h, if_false, Nat.testBit_xor, Nat.testBit_two_pow]
    by_cases hj : j = pos
    · subst hj
      cases hv : v.testBit j <;> cases b <;> simp_all
    · have : ¬ pos = j := fun e => hj e.symm
      simp [hj, this]

theorem testBit_forLoop_set (f : Nat → Bool) (off : Nat) (n : Nat) (p0 j : Nat) :
    (forLoop n (fun i p => bitsetSet p (off + i) (f i)) p0).testBit j =
      if off ≤ j ∧ j < off + n then f (j - off) else p0.testBit j := by
  induction n with
  | zero =>
    have : ¬ (off ≤ j ∧ j < off) := by omega
    simp [forLoop, this]
  | succ n ih =>
    simp only [forLoop, testBit_bitsetSet, ih]
    by_cases hj : j = off + n
    · subst hj
      have : off ≤ off + n ∧ off + n < off + (n + 1) := by omega
      simp [this]
    · simp only [hj, if_false]
      by_cases h1 : off ≤ j ∧ j < off + n
      · have : off ≤ j ∧ j < off + (n + 1) := by omega
        simp [h1, this]
      · have : ¬ (off ≤ j ∧ j < off + (n + 1)) := by omega
        simp [h1, this]

theorem testBit_forLoop_copy (f : Nat → Bool) (n : Nat) (p0 j : Nat) :
    (forLoop n (fun i p => bitsetSet p i (f i)) p0).testBit j =
      if j < n then f j else p0.testBit j := by
  simpa using testBit_forLoop_set f 0 n p0 j

/-! ## Records -/

theorem fromPacked_x_testBit (NX NY NZ p i : Nat) :
    (BitVec.fromPacked NX NY NZ p).x.testBit i = (decide (i < NX) && p.testBit i) := by
  simp only [BitVec.fromPacked, setFromPacked, testBit_forLoop_copy]
  by_cases h : i < NX <;> simp [h]

theorem fromPacked_y_testBit (NX NY NZ p i : Nat) :
    (BitVec.fromPacked NX NY NZ p).y.testBit i = (decide (i < NY) && p.testBit (NX + i)) := by
  simp only [BitVec.fromPacked, setFromPacked, testBit_forLoop_copy]
  by_cases h : i < NY <;> simp [h]

theorem fromPacked_z_testBit (NX NY NZ p i : Nat) :
    (BitVec.fromPacked NX NY NZ p).z.testBit i =
      (decide (i < NZ) && p.testBit (NX + NY + i)) := by
  simp only [BitVec.fromPacked, setFromPacked, testBit_forLoop_copy]
  by_cases h : i < NZ <;> simp [h]

theorem lt_two_pow_of_testBit (v N : Nat) (h : ∀ i, N ≤ i → v.testBit i = false) :
    v < 2 ^ N :=
  Nat.lt_pow_two_of_testBit v h

theorem fromPacked_inShape (NX NY NZ p : Nat) :
    (BitVec.fromPacked NX NY NZ p).InShape NX NY NZ := by
  refine ⟨?_, ?_, ?_⟩
  · apply lt_two_pow_of_testBit
    intro i hi
    rw [fromPacked_x_testBit]
    simp [Nat.not_lt.mpr hi]
  · apply lt_two_pow_of_testBit
    intro i hi
    rw [fromPacked_y_testBit]
    simp [Nat.not_lt.mpr hi]
  · apply lt_two_pow_of_testBit
    intro i hi
    rw [fromPacked_z_testBit]
    simp [Nat.not_lt.mpr hi]

theorem bitsetOfULL_eq_mod (N val : Nat) (h : val < 2 ^ 64) :
    bitsetOfULL N val = val % 2 ^ N := by
  unfold bitsetOfULL
  by_cases hN : N ≤ 64
  · rw [Nat.min_eq_left hN]
  · have h1 : 2 ^ 64 ≤ 2 ^ N := Nat.pow_le_pow_right (by decide) (by omega)
    rw [Nat.min_eq_right (by omega), Nat.mod_eq_of_lt h, Nat.mod_eq_of_lt (by omega)]

/-! ## `getByteSize` -/

theorem f32Shift_of_lt (fuel n : Nat) (h : n < 2 ^ 24) : f32Shift (fuel + 1) n = 0 := by
  rw [f32Shift, if_pos h]

theorem toFloat32_of_lt (n : Nat) (h : n < 2 ^ 24) : toFloat32 n = n := by
  have e : f32Shift 64 n = 0 := f32Shift_of_lt 63 n h
  simp [toFloat32, e, Nat.mod_one]

theorem getByteSize_of_lt (NX NY NZ size : Nat) (h : size * (NX + NY + NZ) < 2 ^ 24) :
    getByteSize NX NY NZ size = (size * (NX + NY + NZ) + 7) / 8 := by
  have h64 : size * (NX + NY + NZ) < 2 ^ 64 :=
    lt_trans h (Nat.pow_lt_pow_right (by decide) (by decide))
  simp only [getByteSize, Nat.mod_eq_of_lt h64, toFloat32_of_lt _ h]

/-! ## `calcPackedData` -/

theorem getD_set {α : Type} (l : List α) (i j : Nat) (a d : α) :
    (l.set i a).getD j d = if j = i ∧ i < l.length then a else l.getD j d := by
  simp only [List.getD_eq_getElem?_getD, List.getElem?_set]
  by_cases hji : i = j
  · subst hji
    by_cases hl : i < l.length
    · simp [hl]
    · simp [hl, List.getElem?_eq_none (Nat.not_lt.mp hl)]
  · have : ¬ j = i := fun e => hji e.symm
    simp [hji, this]

theorem testBit_mod_256 (v c : Nat) (hc : c < 8) : (v % 256).testBit c = v.testBit c := by
  have : (256 : Nat) = 2 ^ 8 := by decide
  rw [this, Nat.testBit_mod_two_pow]
  simp [hc]

theorem testBit_mod_256_ge (v c : Nat) (hc : 8 ≤ c) : (v % 256).testBit c = false := by
  have : (256 : Nat) = 2 ^ 8 := by decide
  rw [this, Nat.testBit_mod_two_pow]
  simp [Nat.not_lt.mpr hc]

theorem putBit_inv (g : Nat → Bool) (A : Nat) (fresh : Nat → Nat) (t : Nat)
    (s s1 : PackState) (b : Bool) (hb : b = g t) (hI : PackInv g A fresh t s)
    (h : putBit b s = .ok s1) : PackInv g A fresh (t + 1) s1 := by
  obtain ⟨h1, h2, h3, h4, h5, h6, h7, h8⟩ := hI
  unfold putBit at h
  by_cases h0 : (s.bit_idx + 1) % 8 = 0
  · rw [if_pos h0] at h
    by_cases hw : s.current_byte < s.packed_data.length
    · rw [if_pos hw] at h
      injection h with h
      subst h
      have e1 : (t + 1) / 8 = t / 8 + 1 := by omega
      have e2 : (t + 1) % 8 = 0 := by omega
      have e3 : t % 8 = 7 := by omega
      refine ⟨by simp [e2, h0], by simp [e1, h2], by simp [h3], by omega, ?_, ?_, ?_, ?_⟩
      · intro k hk
        simp only [streamBit, getD_set]
        by_cases hk8 : k / 8 = s.current_byte
        · rw [if_pos ⟨hk8, hw⟩, testBit_mod_256 _ _ (Nat.mod_lt _ (by decide)),
            testBit_bitsetSet]
          by_cases hc : k % 8 = s.bit_idx
          · rw [if_pos hc, hb]
            congr 1
            omega
          · rw [if_neg hc, h8 (k % 8) (by omega)]
            congr 1
            omega
        · have : ¬ (k / 8 = s.current_byte ∧ s.current_byte < s.packed_data.length) :=
            fun hh => hk8 hh.1
          rw [if_neg this]
          exact h5 k (by omega)
      · intro i hi
        simp only [getD_set]
        by_cases hk8 : i = s.current_byte
        · rw [if_pos ⟨hk8, hw⟩]
          exact Nat.mod_lt _ (by decide)
        · have : ¬ (i = s.current_byte ∧ s.current_byte < s.packed_data.length) :=
            fun hh => hk8 hh.1
          rw [if_neg this]
          exact h6 i (by omega)
      · intro i hi hiA
        simp only [getD_set]
        have : ¬ (i = s.current_byte ∧ s.current_byte < s.packed_data.length) :=
          fun hh => by omega
        rw [if_neg this]
        exact h7 i (by omega) hiA
      · intro c hc
        omega
    · rw [if_neg hw] at h
      exact Except.noConfusion h
  · rw [if_neg h0] at h
    injection h with h
    subst h
    have e1 : (t + 1) / 8 = t / 8 := by omega
    have e2 : (t + 1) % 8 = t % 8 + 1 := by omega
    refine ⟨by simp [e2, h1], by simp [e1, h2], h3, by omega, ?_, ?_, ?_, ?_⟩
    · intro k hk
      exact h5 k (by omega)
    · intro i hi
      exact h6 i (by omega)
    · intro i hi hiA
      exact h7 i (by omega) hiA
    · intro c hc
      simp only [testBit_bitsetSet]
      by_cases hcc : c = s.bit_idx
      · rw [if_pos hcc, hb]
        congr 1
        omega
      · rw [if_neg hcc, e1]
        exact h8 c (by omega)

theorem putBit_progress (g : Nat → Bool) (A : Nat) (fresh : Nat → Nat) (t : Nat)
    (s : PackState) (b : Bool) (hI : PackInv g A fresh t s) (hA : (t + 1) / 8 ≤ A) :
    ∃ s1, putBit b s = .ok s1 := by
  obtain ⟨h1, h2, h3, h4, h5, h6, h7, h8⟩ := hI
  unfold putBit
  by_cases h0 : (s.bit_idx + 1) % 8 = 0
  · rw [if_pos h0]
    have hw : s.current_byte < s.packed_data.length := by omega
    rw [if_pos hw]
    exact ⟨_, rfl⟩
  · rw [if_neg h0]
    exact ⟨_, rfl⟩

theorem forLoopM_putBit (g : Nat → Bool) (A : Nat) (fresh : Nat → Nat) (f : Nat → Bool)
    (t : Nat) (s : PackState) (hI : PackInv g A fresh t s) (N : Nat)
    (hf : ∀ i, i < N → f i = g (t + i)) :
    (∀ s1, forLoopM N (fun i s => putBit (f i) s) s = .ok s1 →
        PackInv g A fresh (t + N) s1) ∧
      ((t + N) / 8 ≤ A → ∃ s1, forLoopM N (fun i s => putBit (f i) s) s = .ok s1) := by
  induction N with
  | zero =>
    refine ⟨?_, fun _ => ⟨s, rfl⟩⟩
    intro s1 h
    simp only [forLoopM] at h
    injection h with h
    subst h
    exact hI
  | succ N ih =>
    obtain ⟨ih1, ih2⟩ := ih (fun i hi => hf i (by omega))
    constructor
    · intro s1 h
      simp only [forLoopM] at h
      cases hN : forLoopM N (fun i s => putBit (f i) s) s with
      | error e =>
        rw [hN] at h
        exact Except.noConfusion h
      | ok s2 =>
        rw [hN] at h
        exact putBit_inv g A fresh (t + N) s2 s1 (f N) (hf N (by omega)) (ih1 s2 hN) h
    · intro hA
      obtain ⟨s2, hN⟩ := ih2 (by omega)
      obtain ⟨s1, h1⟩ := putBit_progress g A fresh (t + N) s2 (f N) (ih1 s2 hN) hA
      refine ⟨s1, ?_⟩
      simp only [forLoopM, hN]
      exact h1

theorem packVec_spec (NX NY NZ : Nat) (g : Nat → Bool) (A : Nat) (fresh : Nat → Nat)
    (v : BitVec) (t : Nat) (s : PackState) (hI : PackInv g A fresh t s)
    (hf : ∀ c, c < NX + NY + NZ → recordBit NX NY v c = g (t + c)) :
    (∀ s1, packVec NX NY NZ v s = .ok s1 → PackInv g A fresh (t + (NX + NY + NZ)) s1) ∧
      ((t + (NX + NY + NZ)) / 8 ≤ A → ∃ s1, packVec NX NY NZ v s = .ok s1) := by
  have hx : ∀ i, i < NX → v.x.testBit i = g (t + i) := by
    intro i hi
    rw [← hf i (by omega)]
    simp [recordBit, hi]
  have hy : ∀ i, i < NY → v.y.testBit i = g (t + NX + i) := by
    intro i hi
    rw [Nat.add_assoc, ← hf (NX + i) (by omega)]
    have h1 : ¬ NX + i < NX := by omega
    have h2 : NX + i < NX + NY := by omega
    simp [recordBit, h1, h2]
  have hz : ∀ i, i < NZ → v.z.testBit i = g (t + NX + NY + i) := by
    intro i hi
    rw [Nat.add_assoc, Nat.add_assoc, ← Nat.add_assoc NX, ← hf (NX + NY + i) (by omega)]
    have h1 : ¬ NX + NY + i < NX := by omega
    have h2 : ¬ NX + NY + i < NX + NY := by omega
    have h3 : NX + NY + i - NX - NY = i := by omega
    simp [recordBit, h1, h2, h3]
  obtain ⟨x1, x2⟩ := forLoopM_putBit g A fresh (fun i => v.x.testBit i) t s hI NX hx
  constructor
  · intro s1 h
    unfold packVec at h
    cases h1 : forLoopM NX (fun i s => putBit (v.x.testBit i) s) s with
    | error e =>
      rw [h1] at h
      exact Except.noConfusion h
    | ok sx =>
      simp only [h1] at h
      obtain ⟨y1, _⟩ :=
        forLoopM_putBit g A fresh (fun i => v.y.testBit i) (t + NX) sx (x1 sx h1) NY hy
      cases h2 : forLoopM NY (fun i s => putBit (v.y.testBit i) s) sx with
      | error e =>
        rw [h2] at h
        exact Except.noConfusion h
      | ok sy =>
        simp only [h2] at h
        obtain ⟨z1, _⟩ :=
          forLoopM_putBit g A fresh (fun i => v.z.testBit i) (t + NX + NY) sy (y1 sy h2) NZ hz
        have := z1 s1 h
        rw [Nat.add_assoc, Nat.add_assoc, ← Nat.add_assoc NX] at this
        exact this
  · intro hA
    obtain ⟨sx, h1⟩ := x2 (by omega)
    obtain ⟨y1, y2⟩ :=
      forLoopM_putBit g A fresh (fun i => v.y.testBit i) (t + NX) sx (x1 sx h1) NY hy
    obtain ⟨sy, h2⟩ := y2 (by omega)
    obtain ⟨_, z2⟩ :=
      forLoopM_putBit g A fresh (fun i => v.z.testBit i) (t + NX + NY) sy (y1 sy h2) NZ hz
    obtain ⟨sz, h3⟩ := z2 (by omega)
    refine ⟨sz, ?_⟩
    unfold packVec
    simp only [h1, h2]
    exact h3

theorem packAll_spec (NX NY NZ : Nat) (g : Nat → Bool) (A : Nat) (fresh : Nat → Nat)
    (d : BitVec) (data : List BitVec) :
    ∀ (t : Nat) (s : PackState), PackInv g A fresh t s →
      (∀ j c, j < data.length → c < NX + NY + NZ →
        recordBit NX NY (data.getD j d) c = g (t + j * (NX + NY + NZ) + c)) →
      (∀ s1, packAll NX NY NZ data s = .ok s1 →
          PackInv g A fresh (t + data.length * (NX + NY + NZ)) s1) ∧
        ((t + data.length * (NX + NY + NZ)) / 8 ≤ A →
          ∃ s1, packAll NX NY NZ data s = .ok s1) := by
  induction data with
  | nil =>
    intro t s hI _
    refine ⟨?_, fun _ => ⟨s, rfl⟩⟩
    intro s1 h
    simp only [packAll] at h
    injection h with h
    subst h
    simpa using hI
  | cons v rest ih =>
    intro t s hI hf
    have hv : ∀ c, c < NX + NY + NZ → recordBit NX NY v c = g (t + c) := by
      intro c hc
      have := hf 0 c (by simp) hc
      simpa using this
    obtain ⟨v1, v2⟩ := packVec_spec NX NY NZ g A fresh v t s hI hv
    have hrest : ∀ s2, packVec NX NY NZ v s = .ok s2 →
        ∀ j c, j < rest.length → c < NX + NY + NZ →
          recordBit NX NY (rest.getD j d) c =
            g (t + (NX + NY + NZ) + j * (NX + NY + NZ) + c) := by
      intro s2 _ j c hj hc
      have := hf (j + 1) c (by simp; omega) hc
      rw [List.getD_cons_succ] at this
      rw [this]
      congr 1
      rw [Nat.add_mul]
      omega
    have hlen : t + (rest.length + 1) * (NX + NY + NZ) =
        t + (NX + NY + NZ) + rest.length * (NX + NY + NZ) := by
      rw [Nat.add_mul]
      omega
    constructor
    · intro s1 h
      simp only [packAll] at h
      cases h1 : packVec NX NY NZ v s with
      | error e =>
        rw [h1] at h
        exact Except.noConfusion h
      | ok s2 =>
        rw [h1] at h
        have := (ih (t + (NX + NY + NZ)) s2 (v1 s2 h1) (hrest s2 h1)).1 s1 h
        simpa [hlen] using this
    · intro hA
      simp only [List.length_cons, hlen] at hA
      have hle : (t + (NX + NY + NZ)) / 8 ≤ A := by
        have : t + (NX + NY + NZ) ≤ t + (NX + NY + NZ) + rest.length * (NX + NY + NZ) :=
          Nat.le_add_right _ _
        have := Nat.div_le_div_right (c := 8) this
        omega
      obtain ⟨s2, h1⟩ := v2 hle
      obtain ⟨s1, h2⟩ := (ih (t + (NX + NY + NZ)) s2 (v1 s2 h1) (hrest s2 h1)).2 hA
      refine ⟨s1, ?_⟩
      simp only [packAll, h1]
      exact h2

theorem padLoop_spec : ∀ (budget byte bit_idx : Nat), bit_idx < 8 →
    (bit_idx ≠ 0 → 8 ≤ budget + bit_idx) →
    ∃ byte1, padLoop budget byte bit_idx = some (byte1, 0) ∧
      ∀ c, byte1.testBit c =
        if bit_idx ≠ 0 ∧ bit_idx ≤ c ∧ c < 8 then false else byte.testBit c := by
  intro budget
  induction budget with
  | zero =>
    intro byte bit_idx h8 hb
    have h0 : bit_idx = 0 := by
      by_contra hne
      have := hb hne
      omega
    subst h0
    exact ⟨byte, by simp [padLoop], by simp⟩
  | succ b ih =>
    intro byte bit_idx h8 hb
    by_cases h0 : bit_idx = 0
    · subst h0
      exact ⟨byte, by simp [padLoop], by simp⟩
    · obtain ⟨byte1, e1, e2⟩ := ih (bitsetSet byte bit_idx false) ((bit_idx + 1) % 8)
        (Nat.mod_lt _ (by decide)) (by
          intro hne
          have := hb h0
          omega)
      refine ⟨byte1, ?_, ?_⟩
      · simp only [padLoop, ne_eq, h0, not_false_eq_true, if_true]
        exact e1
      · intro c
        rw [e2 c, testBit_bitsetSet]
        by_cases hc : c = bit_idx
        · subst hc
          have : c ≠ 0 ∧ c ≤ c ∧ c < 8 := ⟨h0, le_refl _, h8⟩
          rw [if_pos this]
          simp
        · rw [if_neg hc]
          by_cases h1 : (bit_idx + 1) % 8 ≠ 0 ∧ (bit_idx + 1) % 8 ≤ c ∧ c < 8
          · have : bit_idx ≠ 0 ∧ bit_idx ≤ c ∧ c < 8 := by omega
            rw [if_pos h1, if_pos this]
          · have : ¬ (bit_idx ≠ 0 ∧ bit_idx ≤ c ∧ c < 8) := by omega
            rw [if_neg h1, if_neg this]

theorem packAll_data (NX NY NZ : Nat) (fresh : Nat → Nat) (data : List BitVec) (A : Nat) :
    (∀ s1, packAll NX NY NZ data
          { packed_data := (List.range A).map fresh, byte := 0, current_byte := 0,
            bit_idx := 0 } = .ok s1 →
        PackInv (dataBit NX NY NZ data) A fresh (data.length * (NX + NY + NZ)) s1) ∧
      ((data.length * (NX + NY + NZ)) / 8 ≤ A →
        ∃ s1, packAll NX NY NZ data
          { packed_data := (List.range A).map fresh, byte := 0, current_byte := 0,
            bit_idx := 0 } = .ok s1) := by
  have hI : PackInv (dataBit NX NY NZ data) A fresh 0
      { packed_data := (List.range A).map fresh, byte := 0, current_byte := 0,
        bit_idx := 0 } := by
    refine ⟨rfl, rfl, by simp, Nat.zero_le _, ?_, ?_, ?_, ?_⟩
    · intro k hk
      omega
    · intro i hi
      omega
    · intro i _ hiA
      simp [List.getD_eq_getElem?_getD, List.getElem?_map, List.getElem?_range hiA]
    · intro c hc
      omega
  have hf : ∀ j c, j < data.length → c < NX + NY + NZ →
      recordBit NX NY (data.getD j (BitVec.default NX NY NZ)) c =
        dataBit NX NY NZ data (0 + j * (NX + NY + NZ) + c) := by
    intro j c _ hc
    have hW : 0 < NX + NY + NZ := by omega
    have e1 : (0 + j * (NX + NY + NZ) + c) / (NX + NY + NZ) = j := by
      rw [Nat.zero_add, Nat.add_comm, Nat.add_mul_div_right _ _ hW, Nat.div_eq_of_lt hc,
        Nat.zero_add]
    have e2 : (0 + j * (NX + NY + NZ) + c) % (NX + NY + NZ) = c := by
      rw [Nat.zero_add, Nat.add_comm, Nat.add_mul_mod_self_right, Nat.mod_eq_of_lt hc]
    simp only [dataBit, e1, e2]
  have := packAll_spec NX NY NZ (dataBit NX NY NZ data) A fresh (BitVec.default NX NY NZ)
    data 0 _ hI hf
  simpa using this

theorem packedOf_of_inv_aligned (g : Nat → Bool) (L A : Nat) (fresh : Nat → Nat)
    (s : PackState) (hI : PackInv g A fresh L s) (h0 : L % 8 = 0) :
    PackedOf g L A fresh s.packed_data ∧ (L + 7) / 8 ≤ A := by
  obtain ⟨h1, h2, h3, h4, h5, h6, h7, h8⟩ := hI
  have e : (L + 7) / 8 = L / 8 := by omega
  refine ⟨⟨h3, ?_, ?_, ?_, ?_⟩, by omega⟩
  · intro k hk
    exact h5 k (by omega)
  · intro k hk1 hk2
    omega
  · intro i hi
    exact h6 i (by omega)
  · intro i hi hiA
    exact h7 i (by omega) hiA

theorem packedOf_of_inv_padded (g : Nat → Bool) (L A : Nat) (fresh : Nat → Nat)
    (s : PackState) (hI : PackInv g A fresh L s) (h0 : L % 8 ≠ 0) (byte1 : Nat)
    (hb : ∀ c, byte1.testBit c =
      if s.bit_idx ≠ 0 ∧ s.bit_idx ≤ c ∧ c < 8 then false else s.byte.testBit c)
    (hw : s.current_byte < s.packed_data.length) :
    PackedOf g L A fresh (s.packed_data.set s.current_byte (byte1 % 256)) ∧
      (L + 7) / 8 ≤ A := by
  obtain ⟨h1, h2, h3, h4, h5, h6, h7, h8⟩ := hI
  have e : (L + 7) / 8 = L / 8 + 1 := by omega
  refine ⟨⟨by simp [h3], ?_, ?_, ?_, ?_⟩, by omega⟩
  · intro k hk
    simp only [streamBit, getD_set]
    by_cases hk8 : k / 8 = s.current_byte
    · rw [if_pos ⟨hk8, hw⟩, testBit_mod_256 _ _ (Nat.mod_lt _ (by decide)), hb]
      have : ¬ (s.bit_idx ≠ 0 ∧ s.bit_idx ≤ k % 8 ∧ k % 8 < 8) := by omega
      rw [if_neg this, h8 (k % 8) (by omega)]
      congr 1
      omega
    · have : ¬ (k / 8 = s.current_byte ∧ s.current_byte < s.packed_data.length) :=
        fun hh => hk8 hh.1
      rw [if_neg this]
      exact h5 k (by omega)
  · intro k hk1 hk2
    simp only [streamBit, getD_set]
    have hk8 : k / 8 = s.current_byte := by omega
    rw [if_pos ⟨hk8, hw⟩, testBit_mod_256 _ _ (Nat.mod_lt _ (by decide)), hb]
    have : s.bit_idx ≠ 0 ∧ s.bit_idx ≤ k % 8 ∧ k % 8 < 8 := by omega
    rw [if_pos this]
  · intro i hi
    simp only [getD_set]
    by_cases hk8 : i = s.current_byte
    · rw [if_pos ⟨hk8, hw⟩]
      exact Nat.mod_lt _ (by decide)
    · have : ¬ (i = s.current_byte ∧ s.current_byte < s.packed_data.length) :=
        fun hh => hk8 hh.1
      rw [if_neg this]
      exact h6 i (by omega)
  · intro i hi hiA
    simp only [getD_set]
    have : ¬ (i = s.current_byte ∧ s.current_byte < s.packed_data.length) :=
      fun hh => by omega
    rw [if_neg this]
    exact h7 i (by omega) hiA

theorem calcPackedData_ok (NX NY NZ : Nat) (fresh : Nat → Nat) (data : List BitVec)
    (buf : List Nat) (h : calcPackedData NX NY NZ fresh data = .ok buf) :
    PackedOf (dataBit NX NY NZ data) (data.length * (NX + NY + NZ))
        (getByteSize NX NY NZ data.length) fresh buf ∧
      (data.length * (NX + NY + NZ) + 7) / 8 ≤ getByteSize NX NY NZ data.length := by
  unfold calcPackedData at h
  simp only [] at h
  cases h1 : packAll NX NY NZ data
      { packed_data := (List.range (getByteSize NX NY NZ data.length)).map fresh, byte := 0,
        current_byte := 0, bit_idx := 0 } with
  | error e =>
    rw [h1] at h
    exact Except.noConfusion h
  | ok s =>
    simp only [h1] at h
    have hI := (packAll_data NX NY NZ fresh data _).1 s h1
    by_cases hb : s.bit_idx ≠ 0
    · rw [if_pos hb] at h
      obtain ⟨byte1, e1, e2⟩ := padLoop_spec 8 s.byte s.bit_idx
        (by rw [hI.bit_idx]; exact Nat.mod_lt _ (by decide))
        (by
          intro _
          omega)
      simp only [e1] at h
      by_cases hw : s.current_byte < s.packed_data.length
      · rw [if_pos hw] at h
        injection h with h
        subst h
        exact packedOf_of_inv_padded _ _ _ _ s hI (by rw [← hI.bit_idx]; exact hb) byte1 e2 hw
      · rw [if_neg hw] at h
        exact Except.noConfusion h
    · rw [if_neg hb] at h
      injection h with h
      subst h
      exact packedOf_of_inv_aligned _ _ _ _ s hI (by
        rw [← hI.bit_idx]
        exact Decidable.not_not.mp hb)

theorem calcPackedData_returns (NX NY NZ : Nat) (fresh : Nat → Nat) (data : List BitVec)
    (hA : (data.length * (NX + NY + NZ) + 7) / 8 ≤ getByteSize NX NY NZ data.length) :
    ∃ buf, calcPackedData NX NY NZ fresh data = .ok buf := by
  obtain ⟨p1, p2⟩ := packAll_data NX NY NZ fresh data (getByteSize NX NY NZ data.length)
  obtain ⟨s, h1⟩ := p2 (by omega)
  have hI := p1 s h1
  unfold calcPackedData
  simp only [h1]
  by_cases hb : s.bit_idx ≠ 0
  · rw [if_pos hb]
    obtain ⟨byte1, e1, _⟩ := padLoop_spec 8 s.byte s.bit_idx
      (by rw [hI.bit_idx]; exact Nat.mod_lt _ (by decide))
      (by
        intro _
        omega)
    simp only [e1]
    have hw : s.current_byte < s.packed_data.length := by
      have := hI.bit_idx
      have := hI.current_byte
      have := hI.length
      omega
    rw [if_pos hw]
    exact ⟨_, rfl⟩
  · rw [if_neg hb]
    exact ⟨_, rfl⟩

theorem calcPackedData_overflow (NX NY NZ : Nat) (fresh : Nat → Nat) (data : List BitVec)
    (hA : (data.length * (NX + NY + NZ)) / 8 = getByteSize NX NY NZ data.length)
    (h0 : (data.length * (NX + NY + NZ)) % 8 ≠ 0) :
    calcPackedData NX NY NZ fresh data =
      .error (.packedWrite (getByteSize NX NY NZ data.length)) := by
  obtain ⟨p1, p2⟩ := packAll_data NX NY NZ fresh data (getByteSize NX NY NZ data.length)
  obtain ⟨s, h1⟩ := p2 (by omega)
  have hI := p1 s h1
  unfold calcPackedData
  simp only [h1]
  have hb : s.bit_idx ≠ 0 := by
    rw [hI.bit_idx]
    exact h0
  rw [if_pos hb]
  obtain ⟨byte1, e1, _⟩ := padLoop_spec 8 s.byte s.bit_idx
    (by rw [hI.bit_idx]; exact Nat.mod_lt _ (by decide))
    (by
      intro _
      omega)
  simp only [e1]
  have hw : ¬ s.current_byte < s.packed_data.length := by
    have := hI.current_byte
    have := hI.length
    omega
  rw [if_neg hw, hI.current_byte, hA]

/-! ## `fromPackedData` -/

theorem succ_wrap (t W : Nat) (hW : 0 < W) (h : (t % W + 1) % W = 0) :
    (t + 1) / W = t / W + 1 ∧ (t + 1) % W = 0 ∧ t % W + 1 = W := by
  have hlt : t % W < W := Nat.mod_lt _ hW
  have hdm : W * (t / W) + t % W = t := Nat.div_add_mod t W
  have hW1 : t % W + 1 = W := by
    by_contra hne
    have hlt2 : t % W + 1 < W := by omega
    rw [Nat.mod_eq_of_lt hlt2] at h
    omega
  have e : t + 1 = W * (t / W + 1) := by
    rw [Nat.mul_add, Nat.mul_one]
    omega
  refine ⟨?_, ?_, hW1⟩
  · rw [e, Nat.mul_div_cancel_left _ hW]
  · rw [e, Nat.mul_mod_right]

theorem succ_nowrap (t W : Nat) (hW : 0 < W) (h : (t % W + 1) % W ≠ 0) :
    (t + 1) / W = t / W ∧ (t + 1) % W = t % W + 1 := by
  have hlt : t % W < W := Nat.mod_lt _ hW
  have hdm : W * (t / W) + t % W = t := Nat.div_add_mod t W
  have hlt2 : t % W + 1 < W := by
    by_contra hne
    have : t % W + 1 = W := by omega
    rw [this, Nat.mod_self] at h
    exact h rfl
  have e : t + 1 = W * (t / W) + (t % W + 1) := by omega
  constructor
  · rw [e, Nat.mul_add_div hW, Nat.div_eq_of_lt hlt2, Nat.add_zero]
  · rw [e, Nat.mul_add_mod, Nat.mod_eq_of_lt hlt2]

theorem testBit_streamWindow (buf : List Nat) (off W c : Nat) :
    (streamWindow buf off W).testBit c = (decide (c < W) && streamBit buf (off + c)) := by
  simp only [streamWindow, testBit_forLoop_copy]
  by_cases h : c < W <;> simp [h]

theorem fromPacked_congr (NX NY NZ e1 e2 : Nat)
    (h : ∀ c, c < NX + NY + NZ → e1.testBit c = e2.testBit c) :
    BitVec.fromPacked NX NY NZ e1 = BitVec.fromPacked NX NY NZ e2 := by
  have hx : (BitVec.fromPacked NX NY NZ e1).x = (BitVec.fromPacked NX NY NZ e2).x := by
    apply Nat.eq_of_testBit_eq
    intro i
    rw [fromPacked_x_testBit, fromPacked_x_testBit]
    by_cases hi : i < NX
    · rw [h i (by omega)]
    · simp [hi]
  have hy : (BitVec.fromPacked NX NY NZ e1).y = (BitVec.fromPacked NX NY NZ e2).y := by
    apply Nat.eq_of_testBit_eq
    intro i
    rw [fromPacked_y_testBit, fromPacked_y_testBit]
    by_cases hi : i < NY
    · rw [h (NX + i) (by omega)]
    · simp [hi]
  have hz : (BitVec.fromPacked NX NY NZ e1).z = (BitVec.fromPacked NX NY NZ e2).z := by
    apply Nat.eq_of_testBit_eq
    intro i
    rw [fromPacked_z_testBit, fromPacked_z_testBit]
    by_cases hi : i < NZ
    · rw [h (NX + NY + i) (by omega)]
    · simp [hi]
  cases h1 : BitVec.fromPacked NX NY NZ e1
  cases h2 : BitVec.fromPacked NX NY NZ e2
  rw [h1, h2] at hx hy hz
  simp only at hx hy hz
  rw [hx, hy, hz]

theorem unpackByte_spec (NX NY NZ : Nat) (packed : List Nat) (n i byte : Nat)
    (hW : 0 < NX + NY + NZ)
    (hbyte : ∀ b, b < 8 → byte.testBit b = streamBit packed (8 * i + b)) :
    ∀ (rem byte_idx : Nat) (s : UnpackState), rem + byte_idx = 8 →
      UnpackInv NX NY NZ packed n (8 * i + byte_idx) s →
      ∃ s1, unpackByte NX NY NZ byte rem byte_idx s = .ok s1 ∧
        (UnpackInv NX NY NZ packed n (8 * (i + 1)) s1 ∨
          UnpackDone NX NY NZ packed n i s1) := by
  intro rem
  induction rem with
  | zero =>
    intro byte_idx s hr hI
    have h8 : byte_idx = 8 := by omega
    subst h8
    exact ⟨s, rfl, Or.inl hI⟩
  | succ r ih =>
    intro byte_idx s hr hI
    obtain ⟨h1, h2, h3, h4, h5, h6, h7⟩ := hI
    have hcb : s.current_bit < NX + NY + NZ := by
      rw [h2]
      exact Nat.mod_lt _ hW
    have hdm : (8 * i + byte_idx) / (NX + NY + NZ) * (NX + NY + NZ) +
        (8 * i + byte_idx) % (NX + NY + NZ) = 8 * i + byte_idx := Nat.div_add_mod' _ _
    have hnext : 8 * i + (byte_idx + 1) = 8 * i + byte_idx + 1 := by omega
    rw [unpackByte]
    simp only [if_pos hcb, if_neg (Nat.ne_of_gt hW)]
    have hnew : ∀ c, c < (8 * i + byte_idx) % (NX + NY + NZ) + 1 →
        (bitsetSet s.elmt s.current_bit (byte.testBit byte_idx)).testBit c =
          streamBit packed ((8 * i + byte_idx) / (NX + NY + NZ) * (NX + NY + NZ) + c) := by
      intro c hc
      rw [testBit_bitsetSet]
      by_cases hcc : c = s.current_bit
      · rw [if_pos hcc, hbyte byte_idx (by omega), hcc, h2, hdm]
      · rw [if_neg hcc]
        exact h7 c (by omega)
    by_cases hwrap : (s.current_bit + 1) % (NX + NY + NZ) = 0
    · obtain ⟨w1, w2, w3⟩ := succ_wrap (8 * i + byte_idx) (NX + NY + NZ) hW (by
        rw [← h2]
        exact hwrap)
      have hidx : s.elmt_idx < s.data.length := by
        rw [h3, h1]
        exact h4
      have hrec : BitVec.fromPacked NX NY NZ
          (bitsetSet s.elmt s.current_bit (byte.testBit byte_idx)) =
          decodeAt NX NY NZ packed s.elmt_idx := by
        unfold decodeAt
        apply fromPacked_congr
        intro c hc
        rw [testBit_streamWindow, hnew c (by omega), h3]
        simp [hc]
      simp only [if_pos hwrap, if_pos hidx, List.length_set]
      by_cases hlast : s.elmt_idx + 1 = s.data.length
      · rw [if_pos hlast]
        refine ⟨_, rfl, Or.inr ⟨by simp [h1], by simp [hlast, h1], ?_, ?_⟩⟩
        · intro j hj
          simp only [getD_set]
          by_cases hje : j = s.elmt_idx
          · rw [if_pos ⟨hje, hidx⟩, hrec, hje]
          · have : ¬ (j = s.elmt_idx ∧ s.elmt_idx < s.data.length) := fun hh => hje hh.1
            rw [if_neg this]
            exact h5 j (by omega)
        · have e1 : n = (8 * i + byte_idx) / (NX + NY + NZ) + 1 := by omega
          have e2 : n * (NX + NY + NZ) = 8 * i + byte_idx + 1 := by
            rw [e1, Nat.add_mul, Nat.one_mul]
            omega
          omega
      · rw [if_neg hlast]
        apply ih (byte_idx + 1) _ (by omega)
        rw [hnext]
        refine ⟨by simp [h1], by simp [w2, hwrap], by simp [w1, h3], by omega, ?_, ?_, ?_⟩
        · intro j hj
          simp only [getD_set]
          by_cases hje : j = s.elmt_idx
          · rw [if_pos ⟨hje, hidx⟩, hrec, hje]
          · have : ¬ (j = s.elmt_idx ∧ s.elmt_idx < s.data.length) := fun hh => hje hh.1
            rw [if_neg this]
            exact h5 j (by omega)
        · intro j hj
          simp only [getD_set]
          have : ¬ (j = s.elmt_idx ∧ s.elmt_idx < s.data.length) := fun hh => by omega
          rw [if_neg this]
          exact h6 j (by omega)
        · intro c hc
          omega
    · obtain ⟨w1, w2⟩ := succ_nowrap (8 * i + byte_idx) (NX + NY + NZ) hW (by
        rw [← h2]
        exact hwrap)
      simp only [if_neg hwrap]
      apply ih (byte_idx + 1) _ (by omega)
      rw [hnext]
      refine ⟨h1, by simp [w2, h2], by simp [w1, h3], by omega, ?_, ?_, ?_⟩
      · intro j hj
        exact h5 j (by omega)
      · intro j hj
        exact h6 j (by omega)
      · intro c hc
        rw [w1]
        exact hnew c (by omega)

theorem streamBit_of_getElem? (packed : List Nat) (i c b : Nat) (h : packed[i]? = some c)
    (hb : b < 8) : (c % 2 ^ 8).testBit b = streamBit packed (8 * i + b) := by
  have e1 : (8 * i + b) / 8 = i := by omega
  have e2 : (8 * i + b) % 8 = b := by omega
  simp only [streamBit, e1, e2, List.getD_eq_getElem?_getD, h, Option.getD_some,
    Nat.testBit_mod_two_pow]
  simp [hb]

theorem unpackLoop_spec (NX NY NZ : Nat) (packed : List Nat) (n : Nat)
    (hW : 0 < NX + NY + NZ) :
    ∀ (rem i : Nat) (s : UnpackState), UnpackInv NX NY NZ packed n (8 * i) s →
      (∀ i1, i ≤ i1 → i1 < i + rem → 8 * i1 < n * (NX + NY + NZ) → i1 < packed.length) →
      ∃ s1, unpackLoop NX NY NZ packed rem i s = .ok s1 ∧ s1.data.length = n ∧
        ∀ j, j < n → s1.data.getD j (BitVec.default NX NY NZ) =
          if j < 8 * (i + rem) / (NX + NY + NZ) then decodeAt NX NY NZ packed j
          else BitVec.default NX NY NZ := by
  intro rem
  induction rem with
  | zero =>
    intro i s hI _
    refine ⟨s, rfl, hI.length, ?_⟩
    intro j _
    by_cases hj : j < 8 * (i + 0) / (NX + NY + NZ)
    · rw [if_pos hj]
      exact hI.decoded j hj
    · rw [if_neg hj]
      exact hI.pending j (Nat.not_lt.mp hj)
  | succ r ih =>
    intro i s hI hlen
    have hbits : 8 * i < n * (NX + NY + NZ) := (Nat.div_lt_iff_lt_mul hW).mp hI.notDone
    have hi : i < packed.length := hlen i (le_refl _) (by omega) hbits
    rw [unpackLoop]
    cases hget : packed[i]? with
    | none =>
      have := List.getElem?_eq_none_iff.mp hget
      omega
    | some c =>
      simp only []
      obtain ⟨s1, e1, hs1⟩ := unpackByte_spec NX NY NZ packed n i (c % 2 ^ 8) hW
        (fun b hb => streamBit_of_getElem? packed i c b hget hb) 8 0 s rfl hI
      simp only [e1]
      cases hs1 with
      | inl hI1 =>
        have hne : ¬ s1.elmt_idx = s1.data.length := by
          rw [hI1.elmt_idx, hI1.length]
          exact Nat.ne_of_lt hI1.notDone
        rw [if_neg hne]
        obtain ⟨s2, e2, l2, d2⟩ := ih (i + 1) s1 hI1 (fun i1 h1 h2 h3 =>
          hlen i1 (by omega) (by omega) h3)
        refine ⟨s2, e2, l2, ?_⟩
        intro j hj
        rw [d2 j hj]
        have : i + 1 + r = i + (r + 1) := by omega
        rw [this]
      | inr hD =>
        have heq : s1.elmt_idx = s1.data.length := by
          rw [hD.elmt_idx, hD.length]
        rw [if_pos heq]
        refine ⟨s1, rfl, hD.length, ?_⟩
        intro j hj
        have hle : n ≤ 8 * (i + (r + 1)) / (NX + NY + NZ) := by
          apply (Nat.le_div_iff_mul_le hW).mpr
          have := hD.within
          omega
        rw [if_pos (by omega)]
        exact hD.decoded j hj

theorem unpackLoop_short (NX NY NZ : Nat) (packed : List Nat) (n : Nat)
    (hW : 0 < NX + NY + NZ) (hshort : 8 * packed.length < n * (NX + NY + NZ)) :
    ∀ (rem i : Nat) (s : UnpackState), UnpackInv NX NY NZ packed n (8 * i) s →
      i ≤ packed.length → packed.length < i + rem →
      unpackLoop NX NY NZ packed rem i s = .error (.packedRead packed.length) := by
  intro rem
  induction rem with
  | zero =>
    intro i s _ h1 h2
    omega
  | succ r ih =>
    intro i s hI h1 h2
    rw [unpackLoop]
    cases hget : packed[i]? with
    | none =>
      have := List.getElem?_eq_none_iff.mp hget
      have : i = packed.length := by omega
      rw [this]
    | some c =>
      have hi : i < packed.length := by
        by_contra hge
        have := List.getElem?_eq_none_iff.mpr (Nat.not_lt.mp hge)
        rw [this] at hget
        exact Option.noConfusion hget
      simp only []
      obtain ⟨s1, e1, hs1⟩ := unpackByte_spec NX NY NZ packed n i (c % 2 ^ 8) hW
        (fun b hb => streamBit_of_getElem? packed i c b hget hb) 8 0 s rfl hI
      simp only [e1]
      cases hs1 with
      | inl hI1 =>
        have hne : ¬ s1.elmt_idx = s1.data.length := by
          rw [hI1.elmt_idx, hI1.length]
          exact Nat.ne_of_lt hI1.notDone
        rw [if_neg hne]
        exact ih (i + 1) s1 hI1 (by omega) (by omega)
      | inr hD =>
        have := hD.within
        omega

theorem getByteSize_of_eq_zero (NX NY NZ size : Nat) (h : size * (NX + NY + NZ) = 0) :
    getByteSize NX NY NZ size = 0 := by
  rw [getByteSize_of_lt NX NY NZ size (by rw [h]; decide), h]

theorem list_eq_of_getD {α : Type} (l1 l2 : List α) (d : α) (hl : l1.length = l2.length)
    (h : ∀ j, j < l1.length → l1.getD j d = l2.getD j d) : l1 = l2 := by
  apply List.ext_getElem hl
  intro j h1 h2
  have := h j h1
  rw [List.getD_eq_getElem _ _ h1, List.getD_eq_getElem _ _ h2] at this
  exact this

theorem getD_decodeAll (NX NY NZ : Nat) (buf : List Nat) (n B j : Nat) (hj : j < n) :
    (decodeAll NX NY NZ buf n B).getD j (BitVec.default NX NY NZ) =
      if j < 8 * B / (NX + NY + NZ) then decodeAt NX NY NZ buf j
      else BitVec.default NX NY NZ := by
  simp [decodeAll, List.getD_eq_getElem?_getD, List.getElem?_map, List.getElem?_range hj]

theorem length_decodeAll (NX NY NZ : Nat) (buf : List Nat) (n B : Nat) :
    (decodeAll NX NY NZ buf n B).length = n := by
  simp [decodeAll]

theorem unpackInv_init (NX NY NZ : Nat) (packed : List Nat) (n : Nat) (hn : 0 < n) :
    UnpackInv NX NY NZ packed n (8 * 0)
      { data := List.replicate n (BitVec.default NX NY NZ), elmt := 0, current_bit := 0,
        elmt_idx := 0 } := by
  refine ⟨by simp, by simp, by simp, by simpa using hn, ?_, ?_, ?_⟩
  · intro j hj
    simp at hj
  · intro j _
    simp only [List.getD_eq_getElem?_getD]
    by_cases hjn : j < n
    · simp [List.getElem?_replicate, hjn]
    · simp [List.getElem?_replicate, hjn]
  · intro c hc
    simp at hc

theorem fromPackedData_spec (NX NY NZ : Nat) (packed : List Nat) (n : Nat)
    (hlen : ∀ i, i < getByteSize NX NY NZ n → 8 * i < n * (NX + NY + NZ) →
      i < packed.length) :
    fromPackedData NX NY NZ packed n =
      .ok (decodeAll NX NY NZ packed n (getByteSize NX NY NZ n)) := by
  unfold fromPackedData
  by_cases h0 : n * (NX + NY + NZ) = 0
  · have hB := getByteSize_of_eq_zero NX NY NZ n h0
    simp only [hB, unpackLoop]
    congr 1
    apply list_eq_of_getD _ _ (BitVec.default NX NY NZ) (by simp [length_decodeAll])
    intro j hj
    have hjn : j < n := by simpa using hj
    rw [getD_decodeAll _ _ _ _ _ _ _ hjn]
    have : ¬ j < 8 * 0 / (NX + NY + NZ) := by simp
    rw [if_neg this]
    simp [List.getD_eq_getElem?_getD, List.getElem?_replicate, hjn]
  · have hn : 0 < n := Nat.pos_of_ne_zero (fun e => h0 (by rw [e, Nat.zero_mul]))
    have hW : 0 < NX + NY + NZ := Nat.pos_of_ne_zero (fun e => h0 (by rw [e, Nat.mul_zero]))
    obtain ⟨s1, e1, l1, d1⟩ := unpackLoop_spec NX NY NZ packed n hW
      (getByteSize NX NY NZ n) 0 _ (unpackInv_init NX NY NZ packed n hn)
      (fun i1 _ h2 h3 => hlen i1 (by omega) h3)
    simp only [e1]
    congr 1
    apply list_eq_of_getD _ _ (BitVec.default NX NY NZ) (by rw [l1, length_decodeAll])
    intro j hj
    rw [l1] at hj
    rw [d1 j hj, getD_decodeAll _ _ _ _ _ _ _ hj, Nat.zero_add]

theorem fromPackedData_short (NX NY NZ : Nat) (packed : List Nat) (n : Nat)
    (hW : 0 < NX + NY + NZ) (hshort : 8 * packed.length < n * (NX + NY + NZ))
    (hB : packed.length < getByteSize NX NY NZ n) :
    fromPackedData NX NY NZ packed n = .error (.packedRead packed.length) := by
  have hn : 0 < n := by
    apply Nat.pos_of_ne_zero
    intro e
    rw [e, Nat.zero_mul] at hshort
    omega
  unfold fromPackedData
  simp only [unpackLoop_short NX NY NZ packed n hW hshort (getByteSize NX NY NZ n) 0 _
    (unpackInv_init NX NY NZ packed n hn) (Nat.zero_le _) (by omega)]

/-! ## Pack and unpack together -/

theorem testBit_of_lt_two_pow (v N i : Nat) (hv : v < 2 ^ N) (hi : N ≤ i) :
    v.testBit i = false :=
  Nat.testBit_lt_two_pow (lt_of_lt_of_le hv (Nat.pow_le_pow_right (by decide) hi))

theorem recordBit_decodeAt (NX NY NZ : Nat) (packed : List Nat) (j c : Nat)
    (hc : c < NX + NY + NZ) :
    recordBit NX NY (decodeAt NX NY NZ packed j) c =
      streamBit packed (j * (NX + NY + NZ) + c) := by
  unfold recordBit decodeAt
  by_cases h1 : c < NX
  · rw [if_pos h1, fromPacked_x_testBit, testBit_streamWindow]
    simp [h1, hc]
  · rw [if_neg h1]
    by_cases h2 : c < NX + NY
    · have e : NX + (c - NX) = c := by omega
      have h3 : c - NX < NY := by omega
      rw [if_pos h2, fromPacked_y_testBit, testBit_streamWindow, e]
      simp [h3, hc]
    · have e : NX + NY + (c - NX - NY) = c := by omega
      have h3 : c - NX - NY < NZ := by omega
      rw [if_neg h2, fromPacked_z_testBit, testBit_streamWindow, e]
      simp [h3, hc]

theorem decodeAt_eq (NX NY NZ : Nat) (buf : List Nat) (j : Nat) (v : BitVec)
    (hv : v.InShape NX NY NZ)
    (h : ∀ c, c < NX + NY + NZ → streamBit buf (j * (NX + NY + NZ) + c) = recordBit NX NY v c) :
    decodeAt NX NY NZ buf j = v := by
  obtain ⟨hx, hy, hz⟩ := hv
  have hd : (decodeAt NX NY NZ buf j).InShape NX NY NZ := fromPacked_inShape NX NY NZ _
  obtain ⟨dx, dy, dz⟩ := hd
  have ex : (decodeAt NX NY NZ buf j).x = v.x := by
    apply Nat.eq_of_testBit_eq
    intro i
    by_cases hi : i < NX
    · have := recordBit_decodeAt NX NY NZ buf j i (by omega)
      rw [h i (by omega)] at this
      simpa [recordBit, hi] using this
    · rw [testBit_of_lt_two_pow _ _ _ hx (by omega),
        testBit_of_lt_two_pow _ _ _ dx (by omega)]
  have ey : (decodeAt NX NY NZ buf j).y = v.y := by
    apply Nat.eq_of_testBit_eq
    intro i
    by_cases hi : i < NY
    · have := recordBit_decodeAt NX NY NZ buf j (NX + i) (by omega)
      rw [h (NX + i) (by omega)] at this
      have h1 : ¬ NX + i < NX := by omega
      have h2 : NX + i < NX + NY := by omega
      simpa [recordBit, h1, h2] using this
    · rw [testBit_of_lt_two_pow _ _ _ hy (by omega),
        testBit_of_lt_two_pow _ _ _ dy (by omega)]
  have ez : (decodeAt NX NY NZ buf j).z = v.z := by
    apply Nat.eq_of_testBit_eq
    intro i
    by_cases hi : i < NZ
    · have := recordBit_decodeAt NX NY NZ buf j (NX + NY + i) (by omega)
      rw [h (NX + NY + i) (by omega)] at this
      have h1 : ¬ NX + NY + i < NX := by omega
      have h2 : ¬ NX + NY + i < NX + NY := by omega
      have h3 : NX + NY + i - NX - NY = i := by omega
      simpa [recordBit, h1, h2, h3] using this
    · rw [testBit_of_lt_two_pow _ _ _ hz (by omega),
        testBit_of_lt_two_pow _ _ _ dz (by omega)]
  cases hd : decodeAt NX NY NZ buf j
  cases v
  rw [hd] at ex ey ez
  simp only at ex ey ez
  rw [ex, ey, ez]

theorem default_eq_zero (NX NY NZ : Nat) : BitVec.default NX NY NZ = ⟨0, 0, 0⟩ := by
  simp [BitVec.default, BitVec.fromValues, bitsetOfULL]

theorem dataBit_at (NX NY NZ : Nat) (data : List BitVec) (j c : Nat) (hc : c < NX + NY + NZ) :
    dataBit NX NY NZ data (j * (NX + NY + NZ) + c) =
      recordBit NX NY (data.getD j (BitVec.default NX NY NZ)) c := by
  have hW : 0 < NX + NY + NZ := by omega
  have e1 : (j * (NX + NY + NZ) + c) / (NX + NY + NZ) = j := by
    rw [Nat.add_comm, Nat.add_mul_div_right _ _ hW, Nat.div_eq_of_lt hc, Nat.zero_add]
  have e2 : (j * (NX + NY + NZ) + c) % (NX + NY + NZ) = c := by
    rw [Nat.add_comm, Nat.add_mul_mod_self_right, Nat.mod_eq_of_lt hc]
  simp only [dataBit, e1, e2]

/-- Decoding recovers the records when the buffer holds enough bytes and carries
their bits. -/
theorem decodeAll_eq (NX NY NZ : Nat) (buf : List Nat) (data : List BitVec) (B : Nat)
    (hshape : ∀ v, v ∈ data → v.InShape NX NY NZ)
    (hB : data.length * (NX + NY + NZ) ≤ 8 * B)
    (hbits : ∀ k, k < data.length * (NX + NY + NZ) →
      streamBit buf k = dataBit NX NY NZ data k) :
    decodeAll NX NY NZ buf data.length B = data := by
  apply list_eq_of_getD _ _ (BitVec.default NX NY NZ) (length_decodeAll _ _ _ _ _ _)
  intro j hj
  rw [length_decodeAll] at hj
  rw [getD_decodeAll _ _ _ _ _ _ _ hj]
  have hmem : data.getD j (BitVec.default NX NY NZ) ∈ data := by
    rw [List.getD_eq_getElem _ _ hj]
    exact List.getElem_mem _
  have hin := hshape _ hmem
  by_cases hW : NX + NY + NZ = 0
  · have h1 : ¬ j < 8 * B / (NX + NY + NZ) := by simp [hW]
    rw [if_neg h1]
    clear hmem
    generalize data.getD j (BitVec.default NX NY NZ) = v at hin ⊢
    rw [default_eq_zero]
    obtain ⟨hx, hy, hz⟩ := hin
    have e1 : NX = 0 := by omega
    have e2 : NY = 0 := by omega
    have e3 : NZ = 0 := by omega
    rw [e1] at hx
    rw [e2] at hy
    rw [e3] at hz
    cases v with
    | mk x y z =>
      simp only [pow_zero, Nat.lt_one_iff] at hx hy hz
      rw [hx, hy, hz]
  · have hWpos : 0 < NX + NY + NZ := Nat.pos_of_ne_zero hW
    have hle : (j + 1) * (NX + NY + NZ) ≤ data.length * (NX + NY + NZ) :=
      Nat.mul_le_mul_right _ hj
    have h1 : j < 8 * B / (NX + NY + NZ) :=
      (Nat.le_div_iff_mul_le hWpos).mpr (le_trans hle hB)
    rw [if_pos h1]
    apply decodeAt_eq _ _ _ _ _ _ hin
    intro c hc
    rw [hbits _ (by
      rw [Nat.add_mul, Nat.one_mul] at hle
      omega)]
    exact dataBit_at NX NY NZ data j c hc

/-- Round trip wherever `getByteSize` leaves room for all the bits. -/
theorem roundtrip_of_room (NX NY NZ : Nat) (fresh : Nat → Nat) (data : List BitVec)
    (hshape : ∀ v, v ∈ data → v.InShape NX NY NZ)
    (hroom : (data.length * (NX + NY + NZ) + 7) / 8 ≤ getByteSize NX NY NZ data.length) :
    ∃ buf, calcPackedData NX NY NZ fresh data = .ok buf ∧
      fromPackedData NX NY NZ buf data.length = .ok data := by
  obtain ⟨buf, hbuf⟩ := calcPackedData_returns NX NY NZ fresh data hroom
  obtain ⟨hP, _⟩ := calcPackedData_ok NX NY NZ fresh data buf hbuf
  refine ⟨buf, hbuf, ?_⟩
  rw [fromPackedData_spec NX NY NZ buf data.length (fun i hi _ => by
    rw [hP.length]
    exact hi)]
  congr 1
  exact decodeAll_eq NX NY NZ buf data _ hshape (by omega) hP.bits

theorem decodeAt_congr (NX NY NZ : Nat) (p1 p2 : List Nat) (j : Nat)
    (h : ∀ c, c < NX + NY + NZ →
      streamBit p1 (j * (NX + NY + NZ) + c) = streamBit p2 (j * (NX + NY + NZ) + c)) :
    decodeAt NX NY NZ p1 j = decodeAt NX NY NZ p2 j := by
  unfold decodeAt
  apply fromPacked_congr
  intro c hc
  rw [testBit_streamWindow, testBit_streamWindow, h c hc]

theorem decodeAll_congr (NX NY NZ : Nat) (p1 p2 : List Nat) (n B : Nat)
    (h : ∀ k, k < n * (NX + NY + NZ) → streamBit p1 k = streamBit p2 k) :
    decodeAll NX NY NZ p1 n B = decodeAll NX NY NZ p2 n B := by
  unfold decodeAll
  apply List.map_congr_left
  intro j hj
  have hjn : j < n := List.mem_range.mp hj
  have hle : (j + 1) * (NX + NY + NZ) ≤ n * (NX + NY + NZ) := Nat.mul_le_mul_right _ hjn
  rw [Nat.add_mul, Nat.one_mul] at hle
  rw [decodeAt_congr NX NY NZ p1 p2 j (fun c hc => h _ (by omega))]

theorem decodeAt_zero_width (packed : List Nat) (j : Nat) :
    decodeAt 0 0 0 packed j = BitVec.default 0 0 0 := by
  simp [decodeAt, BitVec.fromPacked, setFromPacked, forLoop, default_eq_zero]

/-- When both `getByteSize()` and the held buffer leave room for `n * W` bits,
`fromPackedData(n)` returns `n` records, record `j` decoded from bits
`j * W ..` of the buffer. -/
theorem fromPackedData_of_room (NX NY NZ : Nat) (packed : List Nat) (n : Nat)
    (hroom : (n * (NX + NY + NZ) + 7) / 8 ≤ getByteSize NX NY NZ n)
    (hlen : (n * (NX + NY + NZ) + 7) / 8 ≤ packed.length) :
    ∃ data, fromPackedData NX NY NZ packed n = .ok data ∧ data.length = n ∧
      ∀ j, j < n → data.getD j (BitVec.default NX NY NZ) = decodeAt NX NY NZ packed j := by
  refine ⟨_, fromPackedData_spec NX NY NZ packed n (fun i _ h2 => by omega),
    length_decodeAll _ _ _ _ _ _, ?_⟩
  intro j hj
  rw [getD_decodeAll _ _ _ _ _ _ _ hj]
  by_cases hW : NX + NY + NZ = 0
  · have e1 : NX = 0 := by omega
    have e2 : NY = 0 := by omega
    have e3 : NZ = 0 := by omega
    subst e1 e2 e3
    rw [decodeAt_zero_width]
    simp
  · have hWpos : 0 < NX + NY + NZ := Nat.pos_of_ne_zero hW
    have hle : (j + 1) * (NX + NY + NZ) ≤ n * (NX + NY + NZ) := Nat.mul_le_mul_right _ hj
    have h1 : j < 8 * getByteSize NX NY NZ n / (NX + NY + NZ) :=
      (Nat.le_div_iff_mul_le hWpos).mpr (le_trans hle (by omega))
    rw [if_pos h1]

theorem dataBit_of_decoded (NX NY NZ : Nat) (packed : List Nat) (data : List BitVec)
    (n k : Nat) (hk : k < n * (NX + NY + NZ))
    (hget : ∀ j, j < n →
      data.getD j (BitVec.default NX NY NZ) = decodeAt NX NY NZ packed j) :
    dataBit NX NY NZ data k = streamBit packed k := by
  have hW : 0 < NX + NY + NZ := by
    apply Nat.pos_of_ne_zero
    intro e
    rw [e, Nat.mul_zero] at hk
    omega
  have hj : k / (NX + NY + NZ) < n := (Nat.div_lt_iff_lt_mul hW).mpr hk
  unfold dataBit
  rw [hget _ hj, recordBit_decodeAt _ _ _ _ _ _ (Nat.mod_lt _ hW), Nat.div_add_mod']

theorem eq_of_streamBit (b1 b2 : List Nat) (hl : b1.length = b2.length)
    (h1 : ∀ i, i < b1.length → b1.getD i 0 < 256)
    (h2 : ∀ i, i < b2.length → b2.getD i 0 < 256)
    (h : ∀ k, k < 8 * b1.length → streamBit b1 k = streamBit b2 k) : b1 = b2 := by
  apply list_eq_of_getD b1 b2 0 hl
  intro i hi
  apply Nat.eq_of_testBit_eq
  intro c
  by_cases hc : c < 8
  · have e1 : (8 * i + c) / 8 = i := by omega
    have e2 : (8 * i + c) % 8 = c := by omega
    have := h (8 * i + c) (by omega)
    simpa [streamBit, e1, e2] using this
  · rw [testBit_of_lt_two_pow _ 8 c (h1 i hi) (by omega),
      testBit_of_lt_two_pow _ 8 c (h2 i (by omega)) (by omega)]

/-- With `getByteSize()` the exact ceiling, the buffer `calcPackedData` returns
does not depend on what the allocated memory held. -/
theorem calcPackedData_fresh (NX NY NZ : Nat) (f1 f2 : Nat → Nat) (data : List BitVec)
    (hexact : getByteSize NX NY NZ data.length = (data.length * (NX + NY + NZ) + 7) / 8) :
    calcPackedData NX NY NZ f1 data = calcPackedData NX NY NZ f2 data := by
  obtain ⟨b1, e1⟩ := calcPackedData_returns NX NY NZ f1 data (by rw [hexact])
  obtain ⟨b2, e2⟩ := calcPackedData_returns NX NY NZ f2 data (by rw [hexact])
  obtain ⟨p1, _⟩ := calcPackedData_ok NX NY NZ f1 data b1 e1
  obtain ⟨p2, _⟩ := calcPackedData_ok NX NY NZ f2 data b2 e2
  rw [e1, e2]
  congr 1
  rw [hexact] at p1 p2
  apply eq_of_streamBit b1 b2 (by rw [p1.length, p2.length])
  · intro i hi
    exact p1.small i (by rw [← p1.length]; exact hi)
  · intro i hi
    exact p2.small i (by rw [← p2.length]; exact hi)
  · intro k hk
    rw [p1.length] at hk
    by_cases hkL : k < data.length * (NX + NY + NZ)
    · rw [p1.bits k hkL, p2.bits k hkL]
    · rw [p1.pad k (by omega) hk, p2.pad k (by omega) hk]

/-! ## `getPacked` -/

theorem forLoopM_getPacked_ok (NX NY x p0 n : Nat) (h : n ≤ NX) :
    forLoopM n
        (fun i p =>
          match bitsetGet NX x i with
          | .ok b => .ok (bitsetSet p (NX + NY + i) b)
          | .error e => .error e)
        p0 =
      .ok (forLoop n (fun i p => bitsetSet p (NX + NY + i) (x.testBit i)) p0) := by
  induction n with
  | zero => simp [forLoopM, forLoop]
  | succ n ih =>
    have h3 : n < NX := by omega
    simp only [forLoopM, ih (by omega)]
    simp [h3, bitsetGet, forLoop]

theorem forLoopM_getPacked_fault (NX NY x p0 n : Nat) (h : NX < n) :
    forLoopM n
        (fun i p =>
          match bitsetGet NX x i with
          | .ok b => .ok (bitsetSet p (NX + NY + i) b)
          | .error e => .error e)
        p0 =
      .error (.bitsetIndex NX NX) := by
  induction n with
  | zero => omega
  | succ n ih =>
    by_cases h2 : NX < n
    · simp only [forLoopM, ih h2]
    · have h3 : n = NX := by omega
      subst h3
      simp only [forLoopM, forLoopM_getPacked_ok n NY x p0 n (le_refl _)]
      simp [bitsetGet]

/-- With `NZ ≤ NX` every read `x[i]` of the third loop is in range and
`getPacked` returns. -/
theorem getPacked_of_le (NX NY NZ : Nat) (v : BitVec) (h : NZ ≤ NX) :
    getPacked NX NY NZ v =
      .ok (forLoop NZ (fun i p => bitsetSet p (NX + NY + i) (v.x.testBit i))
        (forLoop NY (fun i p => bitsetSet p (NX + i) (v.y.testBit i))
          (forLoop NX (fun i p => bitsetSet p i (v.x.testBit i)) 0))) := by
  unfold getPacked
  exact forLoopM_getPacked_ok NX NY v.x _ NZ h

/-- With `NX < NZ` the third loop of `getPacked` reads `x[NX]`, outside the
bitset. -/
theorem getPacked_fault (NX NY NZ : Nat) (v : BitVec) (h : NX < NZ) :
    getPacked NX NY NZ v = .error (.bitsetIndex NX NX) := by
  unfold getPacked
  exact forLoopM_getPacked_fault NX NY v.x _ NZ h

/-! ## The array object -/

theorem vectorResize_clear (prior : List BitVec) (n : Nat) (d : BitVec) :
    vectorResize (vectorClear prior) n d = List.replicate n d := by
  simp [vectorResize, vectorClear]

theorem BitVecArray.fromPackedData_eq (NX NY NZ : Nat) (a : BitVecArray) (n : Nat) :
    a.fromPackedData NX NY NZ n =
      match LibPcc.fromPackedData NX NY NZ a.packed_data n with
      | .ok d => .ok { data := d, packed_data := a.packed_data }
      | .error e => .error e := by
  unfold BitVecArray.fromPackedData LibPcc.fromPackedData
  simp only [vectorResize_clear, List.length_replicate]
  cases unpackLoop NX NY NZ a.packed_data (getByteSize NX NY NZ n) 0
      { data := List.replicate n (BitVec.default NX NY NZ), elmt := 0, current_bit := 0,
        elmt_idx := 0 } <;> rfl

/-! ## The write log of `calcPackedData` -/

theorem putBitLogged_eq (b : Bool) (s : PackState) (log : List Nat) :
    putBitLogged b (s, log) =
      attachLog (putBit b s)
        (if (s.bit_idx + 1) % 8 = 0 then log ++ [s.current_byte] else log) := by
  unfold putBitLogged putBit attachLog
  by_cases h0 : (s.bit_idx + 1) % 8 = 0
  · by_cases hw : s.current_byte < s.packed_data.length
    · simp [h0, hw]
    · simp [h0, hw]
  · simp [h0]

theorem putBit_counters (b : Bool) (t : Nat) (s s1 : PackState)
    (hc : s.bit_idx = t % 8 ∧ s.current_byte = t / 8) (h : putBit b s = .ok s1) :
    s1.bit_idx = (t + 1) % 8 ∧ s1.current_byte = (t + 1) / 8 := by
  obtain ⟨h1, h2⟩ := hc
  unfold putBit at h
  by_cases h0 : (s.bit_idx + 1) % 8 = 0
  · rw [if_pos h0] at h
    by_cases hw : s.current_byte < s.packed_data.length
    · rw [if_pos hw] at h
      injection h with h
      subst h
      constructor
      · show (s.bit_idx + 1) % 8 = (t + 1) % 8
        omega
      · show s.current_byte + 1 = (t + 1) / 8
        omega
    · rw [if_neg hw] at h
      exact Except.noConfusion h
  · rw [if_neg h0] at h
    injection h with h
    subst h
    constructor
    · show (s.bit_idx + 1) % 8 = (t + 1) % 8
      omega
    · show s.current_byte = (t + 1) / 8
      omega

theorem forLoopM_putBit_counters (f : Nat → Bool) (t : Nat) (s : PackState)
    (hc : s.bit_idx = t % 8 ∧ s.current_byte = t / 8) (N : Nat) :
    ∀ s1, forLoopM N (fun i s => putBit (f i) s) s = .ok s1 →
      s1.bit_idx = (t + N) % 8 ∧ s1.current_byte = (t + N) / 8 := by
  induction N with
  | zero =>
    intro s1 h
    simp only [forLoopM] at h
    injection h with h
    subst h
    exact hc
  | succ N ih =>
    intro s1 h
    simp only [forLoopM] at h
    cases hN : forLoopM N (fun i s => putBit (f i) s) s with
    | error e =>
      rw [hN] at h
      exact Except.noConfusion h
    | ok s2 =>
      rw [hN] at h
      exact putBit_counters (f N) (t + N) s2 s1 (ih s2 hN) h

theorem forLoopM_putBitLogged (f : Nat → Bool) (t : Nat) (s : PackState)
    (hc : s.bit_idx = t % 8 ∧ s.current_byte = t / 8) (N : Nat) :
    forLoopM N (fun i s => putBitLogged (f i) s) (s, List.range (t / 8)) =
      attachLog (forLoopM N (fun i s => putBit (f i) s) s) (List.range ((t + N) / 8)) := by
  induction N with
  | zero => simp [forLoopM, attachLog]
  | succ N ih =>
    simp only [forLoopM, ih]
    cases hN : forLoopM N (fun i s => putBit (f i) s) s with
    | error e => simp [attachLog]
    | ok s2 =>
      obtain ⟨c1, c2⟩ := forLoopM_putBit_counters f t s hc N s2 hN
      simp only [attachLog, putBitLogged_eq]
      by_cases h0 : (s2.bit_idx + 1) % 8 = 0
      · have e : (t + (N + 1)) / 8 = (t + N) / 8 + 1 := by omega
        rw [if_pos h0, c2, e, List.range_succ]
      · have e : (t + (N + 1)) / 8 = (t + N) / 8 := by omega
        rw [if_neg h0, e]

theorem packVec_counters (NX NY NZ : Nat) (v : BitVec) (t : Nat) (s : PackState)
    (hc : s.bit_idx = t % 8 ∧ s.current_byte = t / 8) :
    ∀ s1, packVec NX NY NZ v s = .ok s1 →
      s1.bit_idx = (t + (NX + NY + NZ)) % 8 ∧ s1.current_byte = (t + (NX + NY + NZ)) / 8 := by
  intro s1 h
  unfold packVec at h
  cases h1 : forLoopM NX (fun i s => putBit (v.x.testBit i) s) s with
  | error e =>
    rw [h1] at h
    exact Except.noConfusion h
  | ok sx =>
    simp only [h1] at h
    have cx := forLoopM_putBit_counters (fun i => v.x.testBit i) t s hc NX sx h1
    cases h2 : forLoopM NY (fun i s => putBit (v.y.testBit i) s) sx with
    | error e =>
      rw [h2] at h
      exact Except.noConfusion h
    | ok sy =>
      simp only [h2] at h
      have cy := forLoopM_putBit_counters (fun i => v.y.testBit i) (t + NX) sx cx NY sy h2
      have cz := forLoopM_putBit_counters (fun i => v.z.testBit i) (t + NX + NY) sy cy NZ s1 h
      rw [Nat.add_assoc, Nat.add_assoc, ← Nat.add_assoc NX] at cz
      exact cz

theorem packVecLogged_eq (NX NY NZ : Nat) (v : BitVec) (t : Nat) (s : PackState)
    (hc : s.bit_idx = t % 8 ∧ s.current_byte = t / 8) :
    packVecLogged NX NY NZ v (s, List.range (t / 8)) =
      attachLog (packVec NX NY NZ v s) (List.range ((t + (NX + NY + NZ)) / 8)) := by
  unfold packVecLogged packVec
  rw [forLoopM_putBitLogged (fun i => v.x.testBit i) t s hc NX]
  cases h1 : forLoopM NX (fun i s => putBit (v.x.testBit i) s) s with
  | error e => simp [attachLog]
  | ok sx =>
    have cx := forLoopM_putBit_counters (fun i => v.x.testBit i) t s hc NX sx h1
    simp only [attachLog]
    rw [forLoopM_putBitLogged (fun i => v.y.testBit i) (t + NX) sx cx NY]
    cases h2 : forLoopM NY (fun i s => putBit (v.y.testBit i) s) sx with
    | error e => simp [attachLog]
    | ok sy =>
      have cy := forLoopM_putBit_counters (fun i => v.y.testBit i) (t + NX) sx cx NY sy h2
      simp only [attachLog]
      rw [forLoopM_putBitLogged (fun i => v.z.testBit i) (t + NX + NY) sy cy NZ,
        Nat.add_assoc, Nat.add_assoc, ← Nat.add_assoc NX]
      rfl

theorem packAll_counters (NX NY NZ : Nat) (data : List BitVec) :
    ∀ (t : Nat) (s : PackState), s.bit_idx = t % 8 ∧ s.current_byte = t / 8 →
      ∀ s1, packAll NX NY NZ data s = .ok s1 →
        s1.bit_idx = (t + data.length * (NX + NY + NZ)) % 8 ∧
          s1.current_byte = (t + data.length * (NX + NY + NZ)) / 8 := by
  induction data with
  | nil =>
    intro t s hc s1 h
    simp only [packAll] at h
    injection h with h
    subst h
    simpa using hc
  | cons v rest ih =>
    intro t s hc s1 h
    simp only [packAll] at h
    cases h1 : packVec NX NY NZ v s with
    | error e =>
      rw [h1] at h
      exact Except.noConfusion h
    | ok s2 =>
      rw [h1] at h
      have := ih (t + (NX + NY + NZ)) s2 (packVec_counters NX NY NZ v t s hc s2 h1) s1 h
      have e : t + (rest.length + 1) * (NX + NY + NZ) =
          t + (NX + NY + NZ) + rest.length * (NX + NY + NZ) := by
        rw [Nat.add_mul]
        omega
      simpa [e] using this

theorem packAllLogged_eq (NX NY NZ : Nat) (data : List BitVec) :
    ∀ (t : Nat) (s : PackState), s.bit_idx = t % 8 ∧ s.current_byte = t / 8 →
      packAllLogged NX NY NZ data (s, List.range (t / 8)) =
        attachLog (packAll NX NY NZ data s)
          (List.range ((t + data.length * (NX + NY + NZ)) / 8)) := by
  induction data with
  | nil =>
    intro t s _
    simp [packAllLogged, packAll, attachLog]
  | cons v rest ih =>
    intro t s hc
    have e : t + (rest.length + 1) * (NX + NY + NZ) =
        t + (NX + NY + NZ) + rest.length * (NX + NY + NZ) := by
      rw [Nat.add_mul]
      omega
    simp only [packAllLogged, packAll, packVecLogged_eq NX NY NZ v t s hc, List.length_cons, e]
    cases h1 : packVec NX NY NZ v s with
    | error e1 => simp [attachLog]
    | ok s2 =>
      simp only [attachLog]
      exact ih (t + (NX + NY + NZ)) s2 (packVec_counters NX NY NZ v t s hc s2 h1)

/-- The logged reading returns the buffer of `calcPackedData` together with the
write indices `0, 1, …, ⌈n * W / 8⌉ - 1` in this order. -/
theorem calcPackedDataLogged_eq (NX NY NZ : Nat) (fresh : Nat → Nat) (data : List BitVec) :
    calcPackedDataLogged NX NY NZ fresh data =
      match calcPackedData NX NY NZ fresh data with
      | .ok buf => .ok (buf, List.range ((data.length * (NX + NY + NZ) + 7) / 8))
      | .error e => .error e := by
  have hlog := packAllLogged_eq NX NY NZ data 0
    { packed_data := (List.range (getByteSize NX NY NZ data.length)).map fresh, byte := 0,
      current_byte := 0, bit_idx := 0 } ⟨rfl, rfl⟩
  have hcnt := packAll_counters NX NY NZ data 0
    { packed_data := (List.range (getByteSize NX NY NZ data.length)).map fresh, byte := 0,
      current_byte := 0, bit_idx := 0 } ⟨rfl, rfl⟩
  simp only [Nat.zero_div, List.range_zero, Nat.zero_add] at hlog hcnt
  unfold calcPackedDataLogged calcPackedData
  simp only [hlog]
  cases h1 : packAll NX NY NZ data
      { packed_data := (List.range (getByteSize NX NY NZ data.length)).map fresh, byte := 0,
        current_byte := 0, bit_idx := 0 } with
  | error e => simp [attachLog]
  | ok s =>
    obtain ⟨c1, c2⟩ := hcnt s h1
    simp only [attachLog]
    by_cases hb : s.bit_idx ≠ 0
    · have e : (data.length * (NX + NY + NZ) + 7) / 8 =
          data.length * (NX + NY + NZ) / 8 + 1 := by omega
      simp only [if_pos hb]
      cases padLoop 8 s.byte s.bit_idx with
      | none => rfl
      | some r =>
        by_cases hw : s.current_byte < s.packed_data.length
        · simp only [if_pos hw, e, List.range_succ]
          rw [c2]
        · simp only [if_neg hw]
    · have e : (data.length * (NX + NY + NZ) + 7) / 8 =
          data.length * (NX + NY + NZ) / 8 := by omega
      simp only [if_neg hb, e]

/-! ## Safety and prefixes of `fromPackedData` -/

theorem streamBit_take (packed : List Nat) (c k : Nat) (hk : k / 8 < c) :
    streamBit (packed.take c) k = streamBit packed k := by
  simp only [streamBit, List.getD_eq_getElem?_getD, List.getElem?_take, if_pos hk]

/-- With a held buffer of at least `⌈n * W / 8⌉` bytes, `fromPackedData(n)`
returns `n` records, and returns the same on the buffer cut to `⌈n * W / 8⌉`
bytes: no byte at or beyond that index is read, no `data[i]` with `i ≥ n` is
touched and `% 0` is not evaluated, each of which would stop the run. -/
theorem fromPackedData_safe (NX NY NZ : Nat) (packed : List Nat) (n : Nat)
    (hlen : (n * (NX + NY + NZ) + 7) / 8 ≤ packed.length) :
    ∃ data, fromPackedData NX NY NZ packed n = .ok data ∧ data.length = n ∧
      fromPackedData NX NY NZ (packed.take ((n * (NX + NY + NZ) + 7) / 8)) n = .ok data := by
  refine ⟨_, fromPackedData_spec NX NY NZ packed n (fun i _ h => by omega),
    length_decodeAll _ _ _ _ _ _, ?_⟩
  rw [fromPackedData_spec NX NY NZ _ n (fun i _ h => by
    rw [List.length_take]
    omega)]
  congr 1
  apply decodeAll_congr
  intro k hk
  exact streamBit_take packed _ k (by omega)

/-- Prefix stability wherever `getByteSize()` leaves room for both counts. -/
theorem fromPackedData_prefix_of_room (NX NY NZ : Nat) (packed : List Nat) (m n : Nat)
    (hmn : m ≤ n)
    (hlen : (n * (NX + NY + NZ) + 7) / 8 ≤ packed.length)
    (hm : (m * (NX + NY + NZ) + 7) / 8 ≤ getByteSize NX NY NZ m)
    (hn : (n * (NX + NY + NZ) + 7) / 8 ≤ getByteSize NX NY NZ n) :
    ∃ dm dn, fromPackedData NX NY NZ packed m = .ok dm ∧
      fromPackedData NX NY NZ packed n = .ok dn ∧ dm = dn.take m := by
  have hle : m * (NX + NY + NZ) ≤ n * (NX + NY + NZ) := Nat.mul_le_mul_right _ hmn
  obtain ⟨dm, e1, l1, g1⟩ := fromPackedData_of_room NX NY NZ packed m hm (by omega)
  obtain ⟨dn, e2, l2, g2⟩ := fromPackedData_of_room NX NY NZ packed n hn hlen
  refine ⟨dm, dn, e1, e2, ?_⟩
  apply list_eq_of_getD dm (dn.take m) (BitVec.default NX NY NZ) (by
    rw [l1, List.length_take, l2]
    omega)
  intro j hj
  rw [l1] at hj
  rw [g1 j hj, List.getD_eq_getElem?_getD, List.getElem?_take, if_pos hj,
    ← List.getD_eq_getElem?_getD, g2 j (by omega)]

theorem streamBit_replicate_255 (N k : Nat) (h : k < 8 * N) :
    streamBit (List.replicate N 255) k = true := by
  have hb : ∀ c, c < 8 → (255 : Nat).testBit c = true := by decide
  have hk : k / 8 < N := by omega
  simp only [streamBit, List.getD_eq_getElem?_getD, List.getElem?_replicate, if_pos hk,
    Option.getD_some]
  exact hb _ (Nat.mod_lt _ (by decide))

theorem decodeAt_replicate_255 (N j : Nat) (h : j < 8 * N) :
    decodeAt 1 0 0 (List.replicate N 255) j = BitVec.mk 1 0 0 := by
  apply decodeAt_eq 1 0 0 _ j (BitVec.mk 1 0 0) (by decide)
  intro c hc
  have hc0 : c = 0 := by omega
  subst hc0
  rw [streamBit_replicate_255 N _ (by omega)]
  decide

theorem getElem?_of_getD {α : Type} (l : List α) (j : Nat) (d a : α) (hj : j < l.length)
    (h : l.getD j d = a) : l[j]? = some a := by
  rw [List.getD_eq_getElem _ _ hj] at h
  rw [List.getElem?_eq_getElem hj, h]

/-- A record whose bits lie beyond the bytes `getByteSize()` lets the loop visit
is returned as `BitVec()`. -/
theorem fromPackedData_unassigned (NX NY NZ : Nat) (packed : List Nat) (n j : Nat)
    (hlen : ∀ i, i < getByteSize NX NY NZ n → 8 * i < n * (NX + NY + NZ) →
      i < packed.length)
    (hj : j < n) (hout : ¬ j < 8 * getByteSize NX NY NZ n / (NX + NY + NZ)) :
    ∃ data, fromPackedData NX NY NZ packed n = .ok data ∧
      data[j]? = some (BitVec.default NX NY NZ) := by
  refine ⟨_, fromPackedData_spec NX NY NZ packed n hlen, ?_⟩
  apply getElem?_of_getD _ j (BitVec.default NX NY NZ) _ (by rw [length_decodeAll]; exact hj)
  rw [getD_decodeAll _ _ _ _ _ _ _ hj, if_neg hout]

/-! ## Layout and padding of returned buffers -/

/-- Binary layout of the buffer: `calcPackedData` returns a buffer whenever
`getByteSize()` leaves room for the `n * W` bits, and in every buffer it
returns, for every bit position `k < n * W`, bit `k % 8` of byte `k / 8` is bit
`k % W` of record `k / W`, a record's run being its x bits, then its y bits,
then its z bits, with no padding between records. -/
theorem calcPackedData_layout_of_ok (NX NY NZ : Nat) (fresh : Nat → Nat) (data : List BitVec) :
    ((data.length * (NX + NY + NZ) + 7) / 8 ≤ getByteSize NX NY NZ data.length →
        ∃ buf, calcPackedData NX NY NZ fresh data = .ok buf) ∧
      ∀ buf, calcPackedData NX NY NZ fresh data = .ok buf →
        ∀ k, k < data.length * (NX + NY + NZ) →
          (buf.getD (k / 8) 0).testBit (k % 8) =
            recordBit NX NY (data.getD (k / (NX + NY + NZ)) (BitVec.default NX NY NZ))
              (k % (NX + NY + NZ)) := by
  refine ⟨calcPackedData_returns NX NY NZ fresh data, ?_⟩
  intro buf h k hk
  exact (calcPackedData_ok NX NY NZ fresh data buf h).1.bits k hk

/-- Zero padding of the final byte: `calcPackedData` returns a buffer whenever
`getByteSize()` leaves room for the `n * W` bits, and in every buffer it
returns, when `n * W` is not a multiple of 8, every bit at an index
`≥ n * W % 8` of the final byte (index `n * W / 8`, the byte the padding block
writes) is 0, whatever the accumulator held; that byte is the last byte of the
buffer when the buffer has `⌈n * W / 8⌉` bytes. -/
theorem calcPackedData_padding_zero_of_ok (NX NY NZ : Nat) (fresh : Nat → Nat)
    (data : List BitVec) :
    ((data.length * (NX + NY + NZ) + 7) / 8 ≤ getByteSize NX NY NZ data.length →
        ∃ buf, calcPackedData NX NY NZ fresh data = .ok buf) ∧
      ∀ buf, calcPackedData NX NY NZ fresh data = .ok buf →
        data.length * (NX + NY + NZ) % 8 ≠ 0 →
        (∀ j, data.length * (NX + NY + NZ) % 8 ≤ j →
          (buf.getD (data.length * (NX + NY + NZ) / 8) 0).testBit j = false) ∧
        (buf.length = (data.length * (NX + NY + NZ) + 7) / 8 →
          buf.getLast? = some (buf.getD (data.length * (NX + NY + NZ) / 8) 0)) := by
  refine ⟨calcPackedData_returns NX NY NZ fresh data, ?_⟩
  intro buf h hrem
  obtain ⟨hP, hroom⟩ := calcPackedData_ok NX NY NZ fresh data buf h
  generalize data.length * (NX + NY + NZ) = L at hP hroom hrem ⊢
  constructor
  · intro j hj
    by_cases h8 : j < 8
    · have := hP.pad (8 * (L / 8) + j) (by omega) (by omega)
      have e1 : (8 * (L / 8) + j) / 8 = L / 8 := by omega
      have e2 : (8 * (L / 8) + j) % 8 = j := by omega
      simpa [streamBit, e1, e2] using this
    · exact testBit_of_lt_two_pow _ 8 j (hP.small (L / 8) (by omega)) (by omega)
  · intro hlen
    have hlt : L / 8 < buf.length := by omega
    rw [List.getLast?_eq_getElem?, List.getD_eq_getElem _ _ hlt,
      List.getElem?_eq_getElem (by omega)]
    congr 1
    congr 1
    omega

theorem zero_inShape (NX NY NZ : Nat) : (BitVec.mk 0 0 0).InShape NX NY NZ :=
  ⟨Nat.two_pow_pos NX, Nat.two_pow_pos NY, Nat.two_pow_pos NZ⟩

/-- A byte of the allocated buffer beyond the `⌈n * W / 8⌉` bytes that hold the
bits is never written: it is returned with the content the allocation had. -/
theorem calcPackedData_unwritten_tail (NX NY NZ : Nat) (fresh : Nat → Nat)
    (data : List BitVec) (i : Nat)
    (h1 : (data.length * (NX + NY + NZ) + 7) / 8 ≤ i)
    (h2 : i < getByteSize NX NY NZ data.length) :
    ∃ buf, calcPackedData NX NY NZ fresh data = .ok buf ∧
      buf.length = getByteSize NX NY NZ data.length ∧ buf[i]? = some (fresh i) := by
  obtain ⟨buf, hbuf⟩ := calcPackedData_returns NX NY NZ fresh data (by omega)
  obtain ⟨hP, _⟩ := calcPackedData_ok NX NY NZ fresh data buf hbuf
  exact ⟨buf, hbuf, hP.length,
    getElem?_of_getD buf i 0 _ (by rw [hP.length]; exact h2) (hP.rest i h1 h2)⟩

/-! ## The claims -/

/-- C1 (array round trip), at 16777217 one-bit records of shape (1,0,0), all in
shape: `getByteSize` returns 2097152 where 2097153 bytes are needed, so
`calcPackedData` writes its final byte at index 2097152, one past the buffer
it allocated, and `fromPackedData(16777217)` reads 2097152 bytes only and
leaves the last record `BitVec()`, whatever the buffer holds: the sequence it
yields differs from the original in its last record. -/
theorem roundtrip_fails_past_float_precision (fresh : Nat → Nat) (packed : List Nat)
    (h : 2097152 ≤ packed.length) :
    (∀ v, v ∈ List.replicate 16777217 (BitVec.mk 1 0 0) → v.InShape 1 0 0) ∧
      calcPackedData 1 0 0 fresh (List.replicate 16777217 (BitVec.mk 1 0 0)) =
        .error (.packedWrite 2097152) ∧
      ∃ data, fromPackedData 1 0 0 packed 16777217 = .ok data ∧
        data[16777216]? = some (BitVec.mk 0 0 0) := by
  have hg : getByteSize 1 0 0 16777217 = 2097152 := by decide
  have hl : (List.replicate 16777217 (BitVec.mk 1 0 0)).length = 16777217 :=
    List.length_replicate _ _
  refine ⟨?_, ?_, ?_⟩
  · intro v hv
    rw [List.eq_of_mem_replicate hv]
    decide
  · have := calcPackedData_overflow 1 0 0 fresh (List.replicate 16777217 (BitVec.mk 1 0 0))
      (by rw [hl]; decide) (by rw [hl]; decide)
    rw [hl, hg] at this
    exact this
  · refine ⟨_, fromPackedData_spec 1 0 0 packed 16777217 (fun i hi _ => by
      rw [hg] at hi
      omega), ?_⟩
    have hlt : 16777216 < 16777217 := by decide
    have hd := getD_decodeAll 1 0 0 packed 16777217 (getByteSize 1 0 0 16777217) 16777216 hlt
    rw [hg, if_neg (by decide), default_eq_zero] at hd
    rw [List.getD_eq_getElem _ _ (by rw [length_decodeAll]; exact hlt)] at hd
    rw [List.getElem?_eq_getElem (by rw [length_decodeAll]; exact hlt), hg, hd]

theorem roundtrip_fails_past_float_precision_witness :
    calcPackedData 1 0 0 (fun _ => 0) (List.replicate 16777217 (BitVec.mk 1 0 0)) =
      .error (.packedWrite 2097152) :=
  (roundtrip_fails_past_float_precision (fun _ => 0) (List.replicate 2097152 0)
    (by rw [List.length_replicate])).2.1

/-- C2 (binary layout of pack), at shape (1,0,0) and 16777217 one-bit records:
bit position `k = 16777216` is below `n * W`, its byte `k / 8 = 2097152` is
not below the `getByteSize() = 2097152` bytes that `calcPackedData` allocates,
and the write of that byte is outside the buffer, so that no buffer holding
bit `k` is returned. -/
theorem calcPackedData_layout_fails_past_float_precision (fresh : Nat → Nat) :
    0 < 1 + 0 + 0 ∧
      16777216 < (List.replicate 16777217 (BitVec.mk 1 0 0)).length * (1 + 0 + 0) ∧
      getByteSize 1 0 0 (List.replicate 16777217 (BitVec.mk 1 0 0)).length = 16777216 / 8 ∧
      calcPackedData 1 0 0 fresh (List.replicate 16777217 (BitVec.mk 1 0 0)) =
        .error (.packedWrite (16777216 / 8)) ∧
      ∀ buf, calcPackedData 1 0 0 fresh (List.replicate 16777217 (BitVec.mk 1 0 0)) ≠
        .ok buf := by
  have hg : getByteSize 1 0 0 16777217 = 2097152 := by decide
  have hl : (List.replicate 16777217 (BitVec.mk 1 0 0)).length = 16777217 :=
    List.length_replicate _ _
  have hk : 16777216 / 8 = 2097152 := by decide
  have herr := calcPackedData_overflow 1 0 0 fresh (List.replicate 16777217 (BitVec.mk 1 0 0))
    (by rw [hl]; decide) (by rw [hl]; decide)
  rw [hl, hg] at herr
  refine ⟨by decide, by rw [hl]; decide, by rw [hl, hg], by rw [hk]; exact herr, ?_⟩
  intro buf hbuf
  rw [herr] at hbuf
  exact Except.noConfusion hbuf

/-- C3 (record round trip), at shape (3,2,3) and the record x = 0b101, y = 0b11,
z = 0b010: `getPacked()` returns 0b10111101, whose z-segment repeats x, and
`BitVec(r.getPacked())` has z = 0b101 where the record has z = 0b010. -/
theorem getPacked_roundtrip_loses_z :
    getPacked 3 2 3 (BitVec.mk 5 3 2) = .ok 189 ∧
      BitVec.fromPacked 3 2 3 189 = BitVec.mk 5 3 5 ∧
      (BitVec.fromPacked 3 2 3 189).z ≠ (BitVec.mk 5 3 2).z := by
  decide

/-- C4 (byte-size formula), at shape (1,0,0) and 16777217 records:
`getByteSize()` returns 2097152 where the exact ceiling is 2097153, because
16777217 is rounded to 16777216 by the conversion to `float`. -/
theorem getByteSize_misrounds :
    getByteSize 1 0 0 16777217 = 2097152 ∧ (16777217 * (1 + 0 + 0) + 7) / 8 = 2097153 := by
  decide

/-- C5 (short buffer) fails as stated: at shape (3,2,3), a held buffer of one
byte and count 2, `fromPackedData` raises no error; it evaluates
`packed_data[1]`, past the end of the buffer. -/
theorem fromPackedData_short_counterexample :
    fromPackedData 3 2 3 [93] 2 = .error (.packedRead 1) := by
  decide

/-- C5 as amended: for a shape with `W > 0` and a count whose `count * W` bits
exceed the bits of the held buffer, when the buffer is also shorter than
`getByteSize()`, `fromPackedData(count)` has no range check: it consumes the
bytes present and then evaluates `packed_data[length]`, one past the end. -/
theorem fromPackedData_reads_past_short_buffer (NX NY NZ : Nat) (packed : List Nat)
    (count : Nat) (hW : 0 < NX + NY + NZ)
    (hshort : 8 * packed.length < count * (NX + NY + NZ))
    (hB : packed.length < getByteSize NX NY NZ count) :
    fromPackedData NX NY NZ packed count = .error (.packedRead packed.length) :=
  fromPackedData_short NX NY NZ packed count hW hshort hB

theorem fromPackedData_reads_past_short_buffer_witness :
    fromPackedData 1 1 1 [0] 5 = .error (.packedRead 1) :=
  fromPackedData_reads_past_short_buffer 1 1 1 [0] 5 (by decide) (by decide) (by decide)

/-- C6 (padding is zero), at shape (268435473,0,0) and one record, `n * W` being
1 modulo 8: `getByteSize()` returns 33554436 where 33554435 bytes are needed,
the padded byte is written at index 33554434, and the last byte of the
returned buffer, index 33554435, is never written: over memory that held 0xFF
it is 0xFF, whose bit 1 is set. -/
theorem calcPackedData_last_byte_unwritten :
    (BitVec.mk 0 0 0).InShape 268435473 0 0 ∧
      1 * (268435473 + 0 + 0) % 8 = 1 ∧
      ∃ buf, calcPackedData 268435473 0 0 (fun _ => 0xFF) [BitVec.mk 0 0 0] = .ok buf ∧
        buf.length = 33554436 ∧
        buf.getLast? = some 0xFF ∧
        (0xFF : Nat).testBit 1 = true := by
  have hg : getByteSize 268435473 0 0 1 = 33554436 := by decide
  refine ⟨zero_inShape 268435473 0 0, by decide, ?_⟩
  obtain ⟨buf, h1, h2, h3⟩ := calcPackedData_unwritten_tail 268435473 0 0 (fun _ => 0xFF)
    [BitVec.mk 0 0 0] 33554435 (by decide) (by decide)
  have hlen : buf.length = 33554436 := by
    rw [h2]
    exact hg
  refine ⟨buf, h1, hlen, ?_, by decide⟩
  rw [List.getLast?_eq_getElem?, hlen]
  exact h3

/-- C7 (unpack never reads padding or trailing bits as data): two buffers
of at least `⌈n * W / 8⌉` bytes that agree on their first `n * W` bits make
`fromPackedData(n)` return, and return equal record sequences. -/
theorem fromPackedData_ignores_tail (NX NY NZ : Nat) (n : Nat) (p1 p2 : List Nat)
    (h1 : (n * (NX + NY + NZ) + 7) / 8 ≤ p1.length)
    (h2 : (n * (NX + NY + NZ) + 7) / 8 ≤ p2.length)
    (hagree : ∀ k, k < n * (NX + NY + NZ) →
      (p1.getD (k / 8) 0).testBit (k % 8) = (p2.getD (k / 8) 0).testBit (k % 8)) :
    fromPackedData NX NY NZ p1 n = fromPackedData NX NY NZ p2 n ∧
      ∃ data, fromPackedData NX NY NZ p1 n = .ok data ∧ data.length = n := by
  rw [fromPackedData_spec NX NY NZ p1 n (fun i _ h => by omega),
    fromPackedData_spec NX NY NZ p2 n (fun i _ h => by omega),
    decodeAll_congr NX NY NZ p1 p2 n _ hagree]
  exact ⟨rfl, _, rfl, length_decodeAll _ _ _ _ _ _⟩

theorem fromPackedData_ignores_tail_witness :
    fromPackedData 1 1 1 [0x5A, 0x3C] 5 = fromPackedData 1 1 1 [0x5A, 0xBC, 0x77] 5 ∧
      ∃ data, fromPackedData 1 1 1 [0x5A, 0x3C] 5 = .ok data ∧ data.length = 5 :=
  fromPackedData_ignores_tail 1 1 1 5 [0x5A, 0x3C] [0x5A, 0xBC, 0x77] (by decide) (by decide)
    (by decide)

/-- C8 (fromPacked splits in fixed order): for every shape, after
`setFromPacked(p)`, and so in the record built by `BitVec(p)`, `x[i] = p[i]`
for all `i < NX`, `y[i] = p[NX+i]` for all `i < NY` and `z[i] = p[NX+NY+i]`
for all `i < NZ`, each field on its own. -/
theorem setFromPacked_splits (NX NY NZ : Nat) (v : BitVec) (p : Nat) :
    ((∀ i, i < NX → (setFromPacked NX NY NZ v p).x.testBit i = p.testBit i) ∧
        (∀ i, i < NY → (setFromPacked NX NY NZ v p).y.testBit i = p.testBit (NX + i)) ∧
        (∀ i, i < NZ →
          (setFromPacked NX NY NZ v p).z.testBit i = p.testBit (NX + NY + i))) ∧
      ((∀ i, i < NX → (BitVec.fromPacked NX NY NZ p).x.testBit i = p.testBit i) ∧
        (∀ i, i < NY → (BitVec.fromPacked NX NY NZ p).y.testBit i = p.testBit (NX + i)) ∧
        (∀ i, i < NZ →
          (BitVec.fromPacked NX NY NZ p).z.testBit i = p.testBit (NX + NY + i))) := by
  refine ⟨⟨?_, ?_, ?_⟩, ⟨?_, ?_, ?_⟩⟩ <;> intro i hi <;>
    simp only [BitVec.fromPacked, setFromPacked, testBit_forLoop_copy, if_pos hi]

theorem setFromPacked_splits_witness :
    (BitVec.fromPacked 0 2 3 0x16).y.testBit 1 = (0x16).testBit (0 + 1) ∧
      (BitVec.fromPacked 0 2 3 0x16).z.testBit 2 = (0x16).testBit (0 + 2 + 2) ∧
      (setFromPacked 3 0 0 (BitVec.mk 7 0 0) 0x2).x.testBit 0 = (0x2).testBit 0 :=
  ⟨(setFromPacked_splits 0 2 3 (BitVec.mk 0 3 7) 0x16).2.2.1 1 (by decide),
    (setFromPacked_splits 0 2 3 (BitVec.mk 0 3 7) 0x16).2.2.2 2 (by decide),
    (setFromPacked_splits 3 0 0 (BitVec.mk 7 0 0) 0x2).1.1 0 (by decide)⟩

/-- C9 (field truncation): for unsigned 64-bit `t_x`, `t_y`, `t_z` the record
`BitVec(t_x, t_y, t_z)` (a total function) has `x = t_x mod 2^NX`,
`y = t_y mod 2^NY`, `z = t_z mod 2^NZ`, the low `NX`, `NY`, `NZ` bits of the
inputs, so every field is within its declared width. -/
theorem fromValues_truncates (NX NY NZ t_x t_y t_z : Nat) (hx : t_x < 2 ^ 64)
    (hy : t_y < 2 ^ 64) (hz : t_z < 2 ^ 64) :
    (BitVec.fromValues NX NY NZ t_x t_y t_z).x = t_x % 2 ^ NX ∧
      (BitVec.fromValues NX NY NZ t_x t_y t_z).y = t_y % 2 ^ NY ∧
      (BitVec.fromValues NX NY NZ t_x t_y t_z).z = t_z % 2 ^ NZ ∧
      (BitVec.fromValues NX NY NZ t_x t_y t_z).InShape NX NY NZ := by
  have ex := bitsetOfULL_eq_mod NX t_x hx
  have ey := bitsetOfULL_eq_mod NY t_y hy
  have ez := bitsetOfULL_eq_mod NZ t_z hz
  refine ⟨ex, ey, ez, ?_, ?_, ?_⟩
  · show bitsetOfULL NX t_x < 2 ^ NX
    rw [ex]
    exact Nat.mod_lt _ (Nat.two_pow_pos NX)
  · show bitsetOfULL NY t_y < 2 ^ NY
    rw [ey]
    exact Nat.mod_lt _ (Nat.two_pow_pos NY)
  · show bitsetOfULL NZ t_z < 2 ^ NZ
    rw [ez]
    exact Nat.mod_lt _ (Nat.two_pow_pos NZ)

theorem fromValues_truncates_witness :
    (BitVec.fromValues 3 2 70 13 7 (2 ^ 64 - 1)).x = 13 % 2 ^ 3 ∧
      (BitVec.fromValues 3 2 70 13 7 (2 ^ 64 - 1)).y = 7 % 2 ^ 2 ∧
      (BitVec.fromValues 3 2 70 13 7 (2 ^ 64 - 1)).z = (2 ^ 64 - 1) % 2 ^ 70 ∧
      (BitVec.fromValues 3 2 70 13 7 (2 ^ 64 - 1)).InShape 3 2 70 :=
  fromValues_truncates 3 2 70 13 7 (2 ^ 64 - 1) (by decide) (by decide) (by decide)

/-- C10 (synced after unpack) fails as stated: at shape (1,0,0) and count 1,
the one-byte buffer 0xFF unpacks to the record x = 1, and `calcPackedData` on
that record produces the byte 0x01, not 0xFF. -/
theorem unpack_then_pack_counterexample :
    ∃ data, fromPackedData 1 0 0 [0xFF] 1 = .ok data ∧
      calcPackedData 1 0 0 (fun _ => 0xFF) data = .ok [0x01] ∧
      calcPackedData 1 0 0 (fun _ => 0xFF) data ≠ .ok [0xFF] :=
  ⟨[BitVec.mk 1 0 0], by decide, by decide, by decide⟩

/-- C10 as amended: when `getByteSize()` is the exact ceiling for count `n` and
the held buffer has `⌈n * W / 8⌉` bytes whose bits from `n * W` on (the
padding) are zero, `fromPackedData(n)` returns a record sequence on which
`calcPackedData` produces a buffer equal byte for byte to the held one. -/
theorem unpack_then_pack_of_zero_padding (NX NY NZ : Nat) (fresh : Nat → Nat)
    (packed : List Nat) (n : Nat)
    (hexact : getByteSize NX NY NZ n = (n * (NX + NY + NZ) + 7) / 8)
    (hlen : packed.length = (n * (NX + NY + NZ) + 7) / 8)
    (hbyte : ∀ b, b ∈ packed → b < 256)
    (hpad : ∀ k, n * (NX + NY + NZ) ≤ k → k < 8 * packed.length →
      (packed.getD (k / 8) 0).testBit (k % 8) = false) :
    ∃ data, fromPackedData NX NY NZ packed n = .ok data ∧
      calcPackedData NX NY NZ fresh data = .ok packed := by
  obtain ⟨data, hdata, hdl, hget⟩ := fromPackedData_of_room NX NY NZ packed n
    (by rw [hexact]) (by rw [hlen])
  obtain ⟨buf, hbuf⟩ := calcPackedData_returns NX NY NZ fresh data (by rw [hdl, hexact])
  obtain ⟨hP, _⟩ := calcPackedData_ok NX NY NZ fresh data buf hbuf
  rw [hdl, hexact] at hP
  refine ⟨data, hdata, ?_⟩
  rw [hbuf]
  congr 1
  apply list_eq_of_getD buf packed 0 (by rw [hP.length, hlen])
  intro i hi
  rw [hP.length] at hi
  have hip : i < packed.length := by rw [hlen]; exact hi
  have hpi : packed.getD i 0 < 256 := by
    rw [List.getD_eq_getElem _ _ hip]
    exact hbyte _ (List.getElem_mem _)
  apply Nat.eq_of_testBit_eq
  intro c
  by_cases hc : c < 8
  · have e1 : (8 * i + c) / 8 = i := by omega
    have e2 : (8 * i + c) % 8 = c := by omega
    have hb : (buf.getD i 0).testBit c = streamBit buf (8 * i + c) := by
      simp only [streamBit, e1, e2]
    have hp : (packed.getD i 0).testBit c = streamBit packed (8 * i + c) := by
      simp only [streamBit, e1, e2]
    rw [hb, hp]
    by_cases hk : 8 * i + c < n * (NX + NY + NZ)
    · rw [hP.bits _ hk]
      exact dataBit_of_decoded NX NY NZ packed data n _ hk hget
    · rw [hP.pad _ (by omega) (by omega)]
      exact (hpad _ (by omega) (by omega)).symm
  · rw [testBit_of_lt_two_pow _ 8 c (hP.small i hi) (by omega),
      testBit_of_lt_two_pow _ 8 c hpi (by omega)]

theorem unpack_then_pack_of_zero_padding_witness :
    ∃ data, fromPackedData 1 1 1 [0x5A, 0x3C] 5 = .ok data ∧
      calcPackedData 1 1 1 (fun _ => 0xFF) data = .ok [0x5A, 0x3C] :=
  unpack_then_pack_of_zero_padding 1 1 1 (fun _ => 0xFF) [0x5A, 0x3C] 5 (by decide)
    (by decide) (by decide) (by
      intro k h1 h2
      have h3 : k = 15 := by
        simp only [List.length_cons, List.length_nil] at h2
        omega
      subst h3
      decide)

/-- C11 (empty array): for every shape, with zero records `getByteSize()` is 0,
`calcPackedData` returns a buffer of length 0 and makes no write to
`packed_data`, and `fromPackedData(0)` returns the empty sequence whatever the
held buffer is, the empty buffer included, so that no byte of it is read. -/
theorem empty_array (NX NY NZ : Nat) (fresh : Nat → Nat) (packed : List Nat) :
    getByteSize NX NY NZ 0 = 0 ∧
      calcPackedData NX NY NZ fresh [] = .ok [] ∧
      calcPackedDataLogged NX NY NZ fresh [] = .ok ([], []) ∧
      fromPackedData NX NY NZ packed 0 = .ok [] ∧
      fromPackedData NX NY NZ [] 0 = .ok [] := by
  have hB : getByteSize NX NY NZ 0 = 0 :=
    getByteSize_of_eq_zero NX NY NZ 0 (Nat.zero_mul _)
  refine ⟨hB, ?_, ?_, ?_, ?_⟩
  · simp [calcPackedData, packAll, hB]
  · simp [calcPackedDataLogged, packAllLogged, hB]
  · simp [fromPackedData, unpackLoop, hB]
  · simp [fromPackedData, unpackLoop, hB]

/-- C12 (concrete scenario), shape (3,2,3): the records {x = 0b101, y = 0b11,
z = 0b010} and {x = 0b001, y = 0b00, z = 0b111} have `getByteSize() = 2`, which
is `2 * 8 / 8` (no padding bit), `calcPackedData` returns the two bytes 0x5D and
0xE1 whatever the allocated memory held, and `fromPackedData(2)` on that buffer
returns both records. -/
theorem concrete_scenario_3_2_3 (fresh : Nat → Nat) :
    getByteSize 3 2 3 2 = 2 ∧ 2 * (3 + 2 + 3) = 8 * 2 ∧
      calcPackedData 3 2 3 fresh [BitVec.mk 0b101 0b11 0b010, BitVec.mk 0b001 0b00 0b111] =
        .ok [0x5D, 0xE1] ∧
      fromPackedData 3 2 3 [0x5D, 0xE1] 2 =
        .ok [BitVec.mk 0b101 0b11 0b010, BitVec.mk 0b001 0b00 0b111] := by
  refine ⟨by decide, by decide, ?_, by decide⟩
  rw [calcPackedData_fresh 3 2 3 fresh (fun _ => 0) _ (by decide)]
  decide

/-- C13 (odd-width scenario), shape (1,1,1): every sequence of five records
is packed by `calcPackedData` into exactly 2 bytes in which bit 7 of the second
byte, the one padding bit, is 0, and `fromPackedData(5)` on that buffer returns
the five records. -/
theorem odd_width_scenario_1_1_1 (fresh : Nat → Nat) (data : List BitVec)
    (hlen : data.length = 5) (hshape : ∀ v, v ∈ data → v.InShape 1 1 1) :
    ∃ buf, calcPackedData 1 1 1 fresh data = .ok buf ∧ buf.length = 2 ∧
      (buf.getD 1 0).testBit 7 = false ∧
      fromPackedData 1 1 1 buf 5 = .ok data := by
  have hB : getByteSize 1 1 1 data.length = 2 := by
    rw [hlen]
    decide
  obtain ⟨buf, h1, h2⟩ := roundtrip_of_room 1 1 1 fresh data hshape (by
    rw [hB, hlen])
  obtain ⟨hP, _⟩ := calcPackedData_ok 1 1 1 fresh data buf h1
  rw [hlen] at h2
  refine ⟨buf, h1, by rw [hP.length, hB], ?_, h2⟩
  have := hP.pad 15 (by rw [hlen]) (by rw [hlen]; decide)
  simpa [streamBit] using this

theorem odd_width_scenario_1_1_1_witness :
    ∃ buf, calcPackedData 1 1 1 (fun _ => 0xFF)
        [BitVec.mk 1 0 1, BitVec.mk 1 1 1, BitVec.mk 0 0 1, BitVec.mk 0 1 0, BitVec.mk 1 1 1] =
          .ok buf ∧ buf.length = 2 ∧ (buf.getD 1 0).testBit 7 = false ∧
      fromPackedData 1 1 1 buf 5 =
        .ok [BitVec.mk 1 0 1, BitVec.mk 1 1 1, BitVec.mk 0 0 1, BitVec.mk 0 1 0,
          BitVec.mk 1 1 1] :=
  odd_width_scenario_1_1_1 (fun _ => 0xFF)
    [BitVec.mk 1 0 1, BitVec.mk 1 1 1, BitVec.mk 0 0 1, BitVec.mk 0 1 0, BitVec.mk 1 1 1]
    (by decide) (by decide)

/-- C14 (packed view as the code builds it) fails as stated: at shape (0,1,2)
and the record x = 0, y = 1, z = 0, the third loop of `getPacked()` reads
`x[0]` on a bitset of size 0, and no packed view is produced. -/
theorem getPacked_counterexample :
    (BitVec.mk 0 1 0).InShape 0 1 2 ∧
      getPacked 0 1 2 (BitVec.mk 0 1 0) = .error (.bitsetIndex 0 0) := by
  decide

/-- C14 as amended: for every shape with `NZ ≤ NX` and every record `r`,
`getPacked()` returns a packed view that has `r.x[i]` at position `i` for
`i < NX`, `r.y[i]` at `NX+i` for `i < NY`, and `r.x[i]`, not `r.z[i]`, at
`NX+NY+i` for `i < NZ`; the record built from it has the x and y of `r` and
`z[i] = r.x[i]` for `i < NZ`. -/
theorem getPacked_z_segment_from_x (NX NY NZ : Nat) (r : BitVec) (hNZ : NZ ≤ NX)
    (hr : r.InShape NX NY NZ) :
    ∃ p, getPacked NX NY NZ r = .ok p ∧
      (∀ i, i < NX → p.testBit i = r.x.testBit i) ∧
      (∀ i, i < NY → p.testBit (NX + i) = r.y.testBit i) ∧
      (∀ i, i < NZ → p.testBit (NX + NY + i) = r.x.testBit i) ∧
      (BitVec.fromPacked NX NY NZ p).x = r.x ∧
      (BitVec.fromPacked NX NY NZ p).y = r.y ∧
      (∀ i, i < NZ → (BitVec.fromPacked NX NY NZ p).z.testBit i = r.x.testBit i) := by
  obtain ⟨hx, hy, _⟩ := hr
  refine ⟨_, getPacked_of_le NX NY NZ r hNZ, ?_⟩
  have b1 : ∀ i, i < NX →
      (forLoop NZ (fun i p => bitsetSet p (NX + NY + i) (r.x.testBit i))
        (forLoop NY (fun i p => bitsetSet p (NX + i) (r.y.testBit i))
          (forLoop NX (fun i p => bitsetSet p i (r.x.testBit i)) 0))).testBit i =
        r.x.testBit i := by
    intro i hi
    have h1 : ¬ (NX + NY ≤ i ∧ i < NX + NY + NZ) := by omega
    have h2 : ¬ (NX ≤ i ∧ i < NX + NY) := by omega
    simp only [testBit_forLoop_set, testBit_forLoop_copy, if_neg h1, if_neg h2, if_pos hi]
  have b2 : ∀ i, i < NY →
      (forLoop NZ (fun i p => bitsetSet p (NX + NY + i) (r.x.testBit i))
        (forLoop NY (fun i p => bitsetSet p (NX + i) (r.y.testBit i))
          (forLoop NX (fun i p => bitsetSet p i (r.x.testBit i)) 0))).testBit (NX + i) =
        r.y.testBit i := by
    intro i hi
    have h1 : ¬ (NX + NY ≤ NX + i ∧ NX + i < NX + NY + NZ) := by omega
    have h2 : NX ≤ NX + i ∧ NX + i < NX + NY := by omega
    have h3 : NX + i - NX = i := by omega
    simp only [testBit_forLoop_set, if_neg h1, if_pos h2, h3]
  have b3 : ∀ i, i < NZ →
      (forLoop NZ (fun i p => bitsetSet p (NX + NY + i) (r.x.testBit i))
        (forLoop NY (fun i p => bitsetSet p (NX + i) (r.y.testBit i))
          (forLoop NX (fun i p => bitsetSet p i (r.x.testBit i)) 0))).testBit
          (NX + NY + i) = r.x.testBit i := by
    intro i hi
    have h1 : NX + NY ≤ NX + NY + i ∧ NX + NY + i < NX + NY + NZ := by omega
    have h3 : NX + NY + i - (NX + NY) = i := by omega
    simp only [testBit_forLoop_set, if_pos h1, h3]
  refine ⟨b1, b2, b3, ?_, ?_, ?_⟩
  · apply Nat.eq_of_testBit_eq
    intro i
    rw [fromPacked_x_testBit]
    by_cases hi : i < NX
    · simp [hi, b1 i hi]
    · simp [hi, testBit_of_lt_two_pow _ _ _ hx (Nat.not_lt.mp hi)]
  · apply Nat.eq_of_testBit_eq
    intro i
    rw [fromPacked_y_testBit]
    by_cases hi : i < NY
    · simp [hi, b2 i hi]
    · simp [hi, testBit_of_lt_two_pow _ _ _ hy (Nat.not_lt.mp hi)]
  · intro i hi
    rw [fromPacked_z_testBit, b3 i hi]
    simp [hi]

theorem getPacked_z_segment_from_x_witness :
    ∃ p, getPacked 3 2 3 (BitVec.mk 0b101 0b11 0b010) = .ok p ∧
      (∀ i, i < 3 → p.testBit (3 + 2 + i) = (0b101).testBit i) ∧
      (∀ i, i < 3 → (BitVec.fromPacked 3 2 3 p).z.testBit i = (0b101).testBit i) :=
  match getPacked_z_segment_from_x 3 2 3 (BitVec.mk 0b101 0b11 0b010) (by decide)
      (by decide) with
  | ⟨p, h0, _, _, h3, _, _, h6⟩ => ⟨p, h0, h3, h6⟩

/-- C15 (unpack overwrites the sequence): two array objects with the same held
buffer of at least `⌈n * W / 8⌉` bytes and any prior record sequences both
complete `fromPackedData(n)`, and end with one and the same record sequence, of
length exactly `n`, the buffer being left as it was. -/
theorem fromPackedData_overwrites (NX NY NZ : Nat) (n : Nat) (a1 a2 : BitVecArray)
    (hsame : a1.packed_data = a2.packed_data)
    (hlen : (n * (NX + NY + NZ) + 7) / 8 ≤ a1.packed_data.length) :
    ∃ data, data.length = n ∧
      a1.fromPackedData NX NY NZ n = .ok { data := data, packed_data := a1.packed_data } ∧
      a2.fromPackedData NX NY NZ n = .ok { data := data, packed_data := a2.packed_data } := by
  have h := fromPackedData_spec NX NY NZ a1.packed_data n (fun i _ h => by omega)
  refine ⟨_, length_decodeAll NX NY NZ a1.packed_data n (getByteSize NX NY NZ n), ?_, ?_⟩
  · rw [BitVecArray.fromPackedData_eq, h]
  · rw [BitVecArray.fromPackedData_eq, ← hsame, h]

theorem fromPackedData_overwrites_witness :
    ∃ data, data.length = 2 ∧
      BitVecArray.fromPackedData 3 2 3 { data := [], packed_data := [0x5D, 0xE1] } 2 =
        .ok { data := data, packed_data := [0x5D, 0xE1] } ∧
      BitVecArray.fromPackedData 3 2 3
          { data := [BitVec.mk 7 3 7, BitVec.mk 1 1 1, BitVec.mk 2 2 2],
            packed_data := [0x5D, 0xE1] } 2 =
        .ok { data := data, packed_data := [0x5D, 0xE1] } :=
  fromPackedData_overwrites 3 2 3 2 { data := [], packed_data := [0x5D, 0xE1] }
    { data := [BitVec.mk 7 3 7, BitVec.mk 1 1 1, BitVec.mk 2 2 2],
      packed_data := [0x5D, 0xE1] } rfl (by decide)

/-- C16 (pack stays inside its buffer and fills it): when `getByteSize()` is the
exact ceiling, `calcPackedData` returns a buffer of `getByteSize()` bytes and
its writes to `packed_data` are at the indices `0, 1, …, getByteSize() - 1` in
this order: each write is below `getByteSize()`, each index below
`getByteSize()` is written exactly once, and when `n * W` is not a multiple of
8 the last write, the padded byte, is at index `n * W / 8`. -/
theorem calcPackedData_writes (NX NY NZ : Nat) (fresh : Nat → Nat) (data : List BitVec)
    (hexact : getByteSize NX NY NZ data.length = (data.length * (NX + NY + NZ) + 7) / 8) :
    ∃ buf writes, calcPackedDataLogged NX NY NZ fresh data = .ok (buf, writes) ∧
      calcPackedData NX NY NZ fresh data = .ok buf ∧
      buf.length = getByteSize NX NY NZ data.length ∧
      writes = List.range (getByteSize NX NY NZ data.length) ∧
      (∀ i, i ∈ writes → i < getByteSize NX NY NZ data.length) ∧
      (∀ i, i < getByteSize NX NY NZ data.length → writes.count i = 1) ∧
      (data.length * (NX + NY + NZ) % 8 ≠ 0 →
        writes.getLast? = some (data.length * (NX + NY + NZ) / 8)) := by
  obtain ⟨buf, hbuf⟩ := calcPackedData_returns NX NY NZ fresh data (by rw [hexact])
  obtain ⟨hP, _⟩ := calcPackedData_ok NX NY NZ fresh data buf hbuf
  refine ⟨buf, List.range (getByteSize NX NY NZ data.length), ?_, hbuf, hP.length, rfl,
    ?_, ?_, ?_⟩
  · rw [calcPackedDataLogged_eq, hbuf, hexact]
  · intro i hi
    exact List.mem_range.mp hi
  · intro i hi
    exact List.count_eq_one_of_mem (List.nodup_range _) (List.mem_range.mpr hi)
  · intro hrem
    have e : (data.length * (NX + NY + NZ) + 7) / 8 =
        data.length * (NX + NY + NZ) / 8 + 1 := by omega
    rw [hexact, e, List.range_succ]
    simp

theorem calcPackedData_writes_witness :
    ∃ buf writes, calcPackedDataLogged 1 1 1 (fun _ => 0xFF)
          [BitVec.mk 1 0 1, BitVec.mk 1 1 1, BitVec.mk 0 0 1, BitVec.mk 0 1 0,
            BitVec.mk 1 1 1] = .ok (buf, writes) ∧
      writes = [0, 1] :=
  match calcPackedData_writes 1 1 1 (fun _ => 0xFF)
      [BitVec.mk 1 0 1, BitVec.mk 1 1 1, BitVec.mk 0 0 1, BitVec.mk 0 1 0, BitVec.mk 1 1 1]
      (by decide) with
  | ⟨buf, writes, h1, _, _, h4, _⟩ => ⟨buf, writes, h1, by rw [h4]; decide⟩

/-- C17 (unpack indexes safely), at shape (1,0,0), count 16777217 and a held
buffer of 2097153 bytes 0xFF, which is `⌈n * W / 8⌉` bytes: bit 16777216 of
the buffer holds x = 1 for the last record, yet `fromPackedData` returns with
that record left at its default value `BitVec()`, because the loop bound
`getByteSize()` is 2097152 and the byte that holds the record is not visited. -/
theorem fromPackedData_leaves_last_record_default :
    (16777217 * (1 + 0 + 0) + 7) / 8 ≤ (List.replicate 2097153 255).length ∧
      decodeAt 1 0 0 (List.replicate 2097153 255) 16777216 = BitVec.mk 1 0 0 ∧
      ∃ data, fromPackedData 1 0 0 (List.replicate 2097153 255) 16777217 = .ok data ∧
        data[16777216]? = some (BitVec.default 1 0 0) ∧
        BitVec.default 1 0 0 ≠ BitVec.mk 1 0 0 := by
  have hg : getByteSize 1 0 0 16777217 = 2097152 := by decide
  refine ⟨by rw [List.length_replicate], decodeAt_replicate_255 _ _ (by decide), ?_⟩
  obtain ⟨data, h1, h2⟩ := fromPackedData_unassigned 1 0 0 (List.replicate 2097153 255)
    16777217 16777216
    (fun i hi _ => by
      rw [hg] at hi
      rw [List.length_replicate]
      omega)
    (by decide) (by rw [hg]; decide)
  exact ⟨data, h1, h2, by decide⟩

/-- C18 (prefix stability), at shape (1,0,0), counts m = 16777217 ≤ n = 16777224
and a held buffer of 2097153 bytes 0xFF, which is `⌈n * W / 8⌉` bytes:
`fromPackedData(n)` returns x = 1 in record 16777216, and `fromPackedData(m)`
returns that record as `BitVec()`, x = 0, because `getByteSize()` is one byte
short for m; the sequence for m is not the first m records of that for n. -/
theorem fromPackedData_prefix_breaks :
    16777217 ≤ 16777224 ∧
      (16777224 * (1 + 0 + 0) + 7) / 8 ≤ (List.replicate 2097153 255).length ∧
      ∃ dm dn, fromPackedData 1 0 0 (List.replicate 2097153 255) 16777217 = .ok dm ∧
        fromPackedData 1 0 0 (List.replicate 2097153 255) 16777224 = .ok dn ∧
        dm[16777216]? = some (BitVec.mk 0 0 0) ∧
        (dn.take 16777217)[16777216]? = some (BitVec.mk 1 0 0) ∧
        dm ≠ dn.take 16777217 := by
  have hg : getByteSize 1 0 0 16777217 = 2097152 := by decide
  have hl : (List.replicate 2097153 255).length = 2097153 := List.length_replicate _ _
  refine ⟨by decide, by rw [hl], ?_⟩
  obtain ⟨dm, m1, m2⟩ := fromPackedData_unassigned 1 0 0 (List.replicate 2097153 255)
    16777217 16777216
    (fun i hi _ => by
      rw [hg] at hi
      rw [hl]
      omega)
    (by decide) (by rw [hg]; decide)
  obtain ⟨dn, n1, n2, n3⟩ := fromPackedData_of_room 1 0 0 (List.replicate 2097153 255)
    16777224 (by decide) (by rw [hl])
  have hdn : dn[16777216]? = some (BitVec.mk 1 0 0) := by
    apply getElem?_of_getD dn 16777216 (BitVec.default 1 0 0) _ (by rw [n2]; decide)
    rw [n3 16777216 (by decide)]
    exact decodeAt_replicate_255 _ _ (by decide)
  have htake : (dn.take 16777217)[16777216]? = some (BitVec.mk 1 0 0) := by
    rw [List.getElem?_take, if_pos (by decide), hdn]
  rw [default_eq_zero] at m2
  refine ⟨dm, dn, m1, n1, m2, htake, ?_⟩
  intro heq
  rw [heq, htake] at m2
  exact absurd m2 (by decide)

end LibPcc
